import Mathlib

/-!
Verification of the bencode codec (`bencode.h`): the document-node tree
(String / Integer / List / Dictionary with NULL child slots), the flattened
"component" comparator `Item::compare`, the always-sorted `Dictionary` engine
(`_find`, `operator[]`, `has_key`, `remove`), the recursive-descent parser
`Item::_read` driven by a `ReferencedStringInput`, and the serializer
(`write`).  Byte strings are modelled as `List Nat`, `intmax_t` as `Int`
(with the 64-bit bounds made explicit where the code's behaviour depends on
them), `Item::Ptr` (a possibly-NULL pointer) as the mutual inductive `MItem`,
and `new`/`delete` pairs are tracked by a live-allocation counter threaded
through the parser so that leak claims are checkable.
-/

namespace Bencode

/-- Byte sequences (`std::string` contents) as lists of byte values. -/
abbrev Bytes := List Nat

/-- Three-way comparison of two bytes, as `char_traits::compare` does per
character inside `std::string::compare`. -/
def natCmp (a b : Nat) : Ordering :=
  if a < b then .lt else if b < a then .gt else .eq

/-- Generic lexicographic three-way comparison of two lists given an element
comparator: first non-equal element decides; a strict prefix sorts first.
Instantiated at bytes it is `std::string::compare`; instantiated at fragment
lists it captures the loop of `Item::compare`. -/
def cmpList (c : α → α → Ordering) : List α → List α → Ordering
  | [], [] => .eq
  | [], _ :: _ => .lt
  | _ :: _, [] => .gt
  | x :: xs, y :: ys =>
    match c x y with
    | .eq => cmpList c xs ys
    | r => r

/-- Byte-wise three-way comparison of byte strings (`std::string::compare`). -/
def bytesCmp (a b : Bytes) : Ordering := cmpList natCmp a b

section CmpLemmas

variable {α : Type} (c : α → α → Ordering)

theorem natCmp_lt_iff {a b : Nat} : natCmp a b = .lt ↔ a < b := by
  unfold natCmp
  split
  · simp [*]
  · split <;> simp_all

theorem natCmp_gt_iff {a b : Nat} : natCmp a b = .gt ↔ b < a := by
  unfold natCmp
  split
  · simp_all; omega
  · split <;> simp_all

theorem natCmp_eq_iff {a b : Nat} : natCmp a b = .eq ↔ a = b := by
  unfold natCmp
  split
  · simp_all; omega
  · split <;> simp_all <;> omega

theorem natCmp_refl (a : Nat) : natCmp a a = .eq := by
  simp [natCmp]

theorem natCmp_swap (a b : Nat) : natCmp a b = (natCmp b a).swap := by
  rcases h : natCmp b a with _ | _ | _
  · rw [natCmp_lt_iff] at h
    simp [Ordering.swap, natCmp_gt_iff, h]
  · rw [natCmp_eq_iff] at h
    simp [Ordering.swap, natCmp_eq_iff, h]
  · rw [natCmp_gt_iff] at h
    simp [Ordering.swap, natCmp_lt_iff, h]

/-- The element-level transitivity facts needed to propagate transitivity to
lexicographic list comparison. -/
structure CmpTrans : Prop where
  eq_eq : ∀ {x y z : α}, c x y = .eq → c y z = .eq → c x z = .eq
  lt_lt : ∀ {x y z : α}, c x y = .lt → c y z = .lt → c x z = .lt
  eq_lt : ∀ {x y z : α}, c x y = .eq → c y z = .lt → c x z = .lt
  lt_eq : ∀ {x y z : α}, c x y = .lt → c y z = .eq → c x z = .lt

theorem natCmp_trans : CmpTrans natCmp := by
  constructor <;> intro x y z h1 h2 <;>
    simp only [natCmp_lt_iff, natCmp_eq_iff] at h1 h2 ⊢ <;> omega

theorem cmpList_refl (hrefl : ∀ x, c x x = .eq) :
    ∀ l : List α, cmpList c l l = .eq := by
  intro l
  induction l with
  | nil => rfl
  | cons x xs ih => simp [cmpList, hrefl, ih]

theorem cmpList_swap (hswap : ∀ x y, c x y = (c y x).swap) :
    ∀ u v : List α, cmpList c u v = (cmpList c v u).swap := by
  intro u
  induction u with
  | nil => intro v; cases v <;> rfl
  | cons x xs ih =>
    intro v
    cases v with
    | nil => rfl
    | cons y ys =>
      simp only [cmpList]
      rw [hswap x y]
      cases c y x <;> simp [Ordering.swap, ih]

theorem cmpList_eq_eq (ht : CmpTrans c) :
    ∀ {u v w : List α}, cmpList c u v = .eq → cmpList c v w = .eq →
      cmpList c u w = .eq := by
  intro u
  induction u with
  | nil =>
    intro v w h1 h2
    cases v with
    | nil => cases w with
      | nil => rfl
      | cons z zs => simp [cmpList] at h2
    | cons y ys => simp [cmpList] at h1
  | cons x xs ih =>
    intro v w h1 h2
    cases v with
    | nil => simp [cmpList] at h1
    | cons y ys =>
      cases w with
      | nil => simp [cmpList] at h2
      | cons z zs =>
        simp only [cmpList] at h1 h2 ⊢
        cases hxy : c x y <;> simp only [hxy] at h1
        · exact absurd h1 (by simp)
        · cases hyz : c y z <;> simp only [hyz] at h2
          · exact absurd h2 (by simp)
          · rw [ht.eq_eq hxy hyz]
            exact ih h1 h2
          · exact absurd h2 (by simp)
        · exact absurd h1 (by simp)

theorem cmpList_lt_lt (ht : CmpTrans c) :
    ∀ {u v w : List α}, cmpList c u v = .lt → cmpList c v w = .lt →
      cmpList c u w = .lt := by
  intro u
  induction u with
  | nil =>
    intro v w h1 h2
    cases v with
    | nil => simp [cmpList] at h1
    | cons y ys =>
      cases w with
      | nil => simp [cmpList] at h2
      | cons z zs => simp [cmpList]
  | cons x xs ih =>
    intro v w h1 h2
    cases v with
    | nil => simp [cmpList] at h1
    | cons y ys =>
      cases w with
      | nil => simp [cmpList] at h2
      | cons z zs =>
        simp only [cmpList] at h1 h2 ⊢
        cases hxy : c x y <;> simp only [hxy] at h1
        · cases hyz : c y z <;> simp only [hyz] at h2
          · rw [ht.lt_lt hxy hyz]
          · rw [ht.lt_eq hxy hyz]
          · exact absurd h2 (by simp)
        · cases hyz : c y z <;> simp only [hyz] at h2
          · rw [ht.eq_lt hxy hyz]
          · rw [ht.eq_eq hxy hyz]
            exact ih h1 h2
          · exact absurd h2 (by simp)
        · exact absurd h1 (by simp)

theorem cmpList_eq_lt (ht : CmpTrans c) :
    ∀ {u v w : List α}, cmpList c u v = .eq → cmpList c v w = .lt →
      cmpList c u w = .lt := by
  intro u
  induction u with
  | nil =>
    intro v w h1 h2
    cases v with
    | nil => cases w with
      | nil => simp [cmpList] at h2
      | cons z zs => simp [cmpList]
    | cons y ys => simp [cmpList] at h1
  | cons x xs ih =>
    intro v w h1 h2
    cases v with
    | nil => simp [cmpList] at h1
    | cons y ys =>
      cases w with
      | nil => simp [cmpList] at h2
      | cons z zs =>
        simp only [cmpList] at h1 h2 ⊢
        cases hxy : c x y <;> simp only [hxy] at h1
        · exact absurd h1 (by simp)
        · cases hyz : c y z <;> simp only [hyz] at h2
          · rw [ht.eq_lt hxy hyz]
          · rw [ht.eq_eq hxy hyz]
            exact ih h1 h2
          · exact absurd h2 (by simp)
        · exact absurd h1 (by simp)

theorem cmpList_lt_eq (ht : CmpTrans c) :
    ∀ {u v w : List α}, cmpList c u v = .lt → cmpList c v w = .eq →
      cmpList c u w = .lt := by
  intro u
  induction u with
  | nil =>
    intro v w h1 h2
    cases v with
    | nil => simp [cmpList] at h1
    | cons y ys =>
      cases w with
      | nil => simp [cmpList] at h2
      | cons z zs => simp [cmpList]
  | cons x xs ih =>
    intro v w h1 h2
    cases v with
    | nil => simp [cmpList] at h1
    | cons y ys =>
      cases w with
      | nil => simp [cmpList] at h2
      | cons z zs =>
        simp only [cmpList] at h1 h2 ⊢
        cases hyz : c y z <;> simp only [hyz] at h2
        · exact absurd h2 (by simp)
        · cases hxy : c x y <;> simp only [hxy] at h1
          · rw [ht.lt_eq hxy hyz]
          · rw [ht.eq_eq hxy hyz]
            exact ih h1 h2
          · exact absurd h1 (by simp)
        · exact absurd h2 (by simp)

theorem bytesCmp_trans : CmpTrans bytesCmp :=
  ⟨fun h1 h2 => cmpList_eq_eq natCmp natCmp_trans h1 h2,
   fun h1 h2 => cmpList_lt_lt natCmp natCmp_trans h1 h2,
   fun h1 h2 => cmpList_eq_lt natCmp natCmp_trans h1 h2,
   fun h1 h2 => cmpList_lt_eq natCmp natCmp_trans h1 h2⟩

theorem bytesCmp_refl (s : Bytes) : bytesCmp s s = .eq :=
  cmpList_refl natCmp natCmp_refl s

theorem bytesCmp_swap (a b : Bytes) : bytesCmp a b = (bytesCmp b a).swap :=
  cmpList_swap natCmp natCmp_swap a b

end CmpLemmas

end Bencode
/-! ## Decimal text (`itoa`)

The source's `itoa` emits the decimal digits of `abs(value)` least significant
first (via `abs(quotient % base)` and `quotient /= base`, at least one digit),
appends a minus sign when `value + 1 < 1` (its unsigned-safe negativity test),
and then reverses the buffer.  `natDigitsCore` produces the reversed result
directly (most significant digit first); the fuel argument only bounds the
recursion depth and `n + 1` steps always suffice. -/

namespace Bencode

/-- Decimal digit characters of `n`, most significant first; `fuel` bounds the
number of digits produced and is always instantiated large enough. -/
def natDigitsCore : Nat → Nat → Bytes
  | 0, _ => []
  | fuel + 1, n =>
    if n < 10 then [48 + n] else natDigitsCore fuel (n / 10) ++ [48 + n % 10]

/-- The source `itoa` instantiated at an unsigned type (`size_t` string
lengths): plain decimal digits, no sign. -/
def itoaN (n : Nat) : Bytes := natDigitsCore (n + 1) n

/-- The source `itoa` instantiated at `intmax_t`: decimal digits of the
absolute value with a leading minus sign for negative values. -/
def itoaZ (v : Int) : Bytes :=
  if v < 0 then 45 :: itoaN v.natAbs else itoaN v.natAbs

/-! ## The document tree

`Item` is the closed node variant.  A C++ `Item::Ptr` may be NULL, which the
mutual type `MItem` captures; `MList` models `std::vector<Item::Ptr>` and
`MPairs` models `std::vector<std::pair<Item::Ptr, Item::Ptr>>`. -/

mutual

inductive Item : Type where
  | str : Bytes → Item
  | int : Int → Item
  | list : MList → Item
  | dict : MPairs → Item

inductive MItem : Type where
  | null : MItem
  | item : Item → MItem

inductive MList : Type where
  | nil : MList
  | cons : MItem → MList → MList

inductive MPairs : Type where
  | nil : MPairs
  | cons : MItem → MItem → MPairs → MPairs

end

/-! ## `componentCount`

`String::componentCount` and `Integer::componentCount` are 1.
`List::componentCount` sums the children, counting a NULL slot as 1.
`Dictionary::componentCount` sums keys and values but adds nothing for a NULL
key or value (unlike `Dictionary::component`, which skips 1 for them — the
two are modelled exactly as written). -/

mutual

def componentCount : Item → Nat
  | .str _ => 1
  | .int _ => 1
  | .list l => countL l
  | .dict d => countD d

def countL : MList → Nat
  | .nil => 0
  | .cons .null tl => 1 + countL tl
  | .cons (.item x) tl => componentCount x + countL tl

def countD : MPairs → Nat
  | .nil => 0
  | .cons .null .null tl => countD tl
  | .cons .null (.item v) tl => componentCount v + countD tl
  | .cons (.item k) .null tl => componentCount k + countD tl
  | .cons (.item k) (.item v) tl =>
      componentCount k + componentCount v + countD tl

end

/-- Component count of a possibly-NULL child as the container walks use it
(`NULL == *item ? 1 : (*item)->componentCount()`). -/
def mcnt : MItem → Nat
  | .null => 1
  | .item x => componentCount x

/-! ## `component(index, buffer)`

The buffer argument is the caller's scratch `std::string`; `String` and
`Integer` leave it untouched for a non-zero index, the containers walk their
children subtracting per-child counts and clear it when they hit a NULL slot
or run off the end — all exactly as in the source. -/

mutual

def component : Item → Nat → Bytes → Bytes
  | .str s, i, buf => if i = 0 then s else buf
  | .int n, i, buf => if i = 0 then itoaZ n else buf
  | .list l, i, buf => compL l i buf
  | .dict d, i, buf => compD d i buf

def compL : MList → Nat → Bytes → Bytes
  | .nil, _, _ => []
  | .cons .null tl, i, buf => if 1 ≤ i then compL tl (i - 1) buf else []
  | .cons (.item x) tl, i, buf =>
      if componentCount x ≤ i then compL tl (i - componentCount x) buf
      else component x i buf

def compD : MPairs → Nat → Bytes → Bytes
  | .nil, _, _ => []
  | .cons .null .null tl, i, buf =>
      if 1 ≤ i then (if 1 ≤ i - 1 then compD tl (i - 1 - 1) buf else [])
      else []
  | .cons .null (.item v) tl, i, buf =>
      if 1 ≤ i then
        (if componentCount v ≤ i - 1 then
          compD tl (i - 1 - componentCount v) buf
         else component v (i - 1) buf)
      else []
  | .cons (.item k) .null tl, i, buf =>
      if componentCount k ≤ i then
        (if 1 ≤ i - componentCount k then
          compD tl (i - componentCount k - 1) buf
         else [])
      else component k i buf
  | .cons (.item k) (.item v) tl, i, buf =>
      if componentCount k ≤ i then
        (if componentCount v ≤ i - componentCount k then
          compD tl (i - componentCount k - componentCount v) buf
         else component v (i - componentCount k) buf)
      else component k i buf

end

/-- The `for` loop of `Item::compare`: `steps` iterations remain, `i` is the
current index, `s1`/`s2` are the two scratch buffers which persist across
iterations (each iteration passes its `component` results on).  When the loop
ends the count rule decides. -/
def compareLoop (a b : Item) : Nat → Nat → Bytes → Bytes → Ordering
  | 0, _, _, _ =>
      if componentCount a < componentCount b then .lt
      else if componentCount b < componentCount a then .gt
      else .eq
  | steps + 1, i, s1, s2 =>
      match bytesCmp (component a i s1) (component b i s2) with
      | .eq => compareLoop a b steps (i + 1) (component a i s1) (component b i s2)
      | r => r

/-- `Item::compare`: run the loop for `min(componentCount a, componentCount b)`
iterations starting from index 0 with empty scratch buffers. -/
def Item.compare (a b : Item) : Ordering :=
  compareLoop a b (min (componentCount a) (componentCount b)) 0 [] []

end Bencode
namespace Bencode

/-! ## Flattened fragment sequences

`frags x` is the sequence of leaf text fragments that `component` can actually
reach on `x` with a valid index (`i < componentCount x`).  Lists agree with
their walk exactly; a Dictionary's walk counts a NULL key or value as one
empty fragment while `Dictionary::componentCount` adds nothing for it, so at
each dictionary level the reachable fragments are the walk's fragments
truncated to that dictionary's `componentCount`. -/

mutual

def frags : Item → List Bytes
  | .str s => [s]
  | .int n => [itoaZ n]
  | .list l => fragsL l
  | .dict d => (fragsD d).take (countD d)

def fragsL : MList → List Bytes
  | .nil => []
  | .cons .null tl => [] :: fragsL tl
  | .cons (.item x) tl => frags x ++ fragsL tl

def fragsD : MPairs → List Bytes
  | .nil => []
  | .cons .null .null tl => [] :: ([] :: fragsD tl)
  | .cons .null (.item v) tl => [] :: (frags v ++ fragsD tl)
  | .cons (.item k) .null tl => frags k ++ ([] :: fragsD tl)
  | .cons (.item k) (.item v) tl => frags k ++ (frags v ++ fragsD tl)

end

mutual

theorem frags_length : ∀ x : Item, (frags x).length = componentCount x
  | .str _ => rfl
  | .int _ => rfl
  | .list l => fragsL_length l
  | .dict d => by
    simp only [frags, componentCount, List.length_take]
    exact Nat.min_eq_left (countD_le_fragsD d)

theorem fragsL_length : ∀ l : MList, (fragsL l).length = countL l
  | .nil => rfl
  | .cons .null tl => by
    simp only [fragsL, countL, List.length_cons, fragsL_length tl]
    omega
  | .cons (.item x) tl => by
    simp only [fragsL, countL, List.length_append, frags_length x,
      fragsL_length tl]

theorem countD_le_fragsD : ∀ d : MPairs, countD d ≤ (fragsD d).length
  | .nil => Nat.le_refl 0
  | .cons .null .null tl => by
    simp only [fragsD, countD, List.length_cons]
    have := countD_le_fragsD tl
    omega
  | .cons .null (.item v) tl => by
    simp only [fragsD, countD, List.length_cons, List.length_append,
      frags_length v]
    have := countD_le_fragsD tl
    omega
  | .cons (.item k) .null tl => by
    simp only [fragsD, countD, List.length_append, List.length_cons,
      frags_length k]
    have := countD_le_fragsD tl
    omega
  | .cons (.item k) (.item v) tl => by
    simp only [fragsD, countD, List.length_append, frags_length k,
      frags_length v]
    have := countD_le_fragsD tl
    omega

end

end Bencode
namespace Bencode

theorem getD_take_of_lt {α : Type} (l : List α) (d : α) (i n : Nat) (h : i < n) :
    (l.take n).getD i d = l.getD i d := by
  rcases Nat.lt_or_ge i l.length with hl | hl
  · rw [List.getD_eq_getElem?_getD, List.getD_eq_getElem?_getD,
      List.getElem?_take]
    simp [h]
  · rw [List.getD_eq_getElem?_getD, List.getD_eq_getElem?_getD]
    rw [List.getElem?_eq_none (by simp; omega), List.getElem?_eq_none hl]

theorem drop_eq_getD_cons {α : Type} (l : List α) (d : α) (i : Nat)
    (h : i < l.length) : l.drop i = l.getD i d :: l.drop (i + 1) := by
  rw [List.drop_eq_getElem_cons h, List.getD_eq_getElem?_getD,
    List.getElem?_eq_getElem h]
  rfl

/-! For a valid index (`i < componentCount x`) the buffer-threaded walk
`component` reaches a leaf fragment, so its result is independent of the
scratch buffer and equals the `i`-th entry of `frags x`. -/

mutual

theorem component_frags : ∀ (x : Item) (i : Nat) (buf : Bytes),
    i < componentCount x → component x i buf = (frags x).getD i []
  | .str s, i, buf => by
    intro h
    have hi : i = 0 := by simpa [componentCount] using h
    subst hi
    rfl
  | .int n, i, buf => by
    intro h
    have hi : i = 0 := by simpa [componentCount] using h
    subst hi
    rfl
  | .list l, i, buf => by
    intro h
    simp only [componentCount] at h
    simp only [component, frags]
    exact compL_frags l i buf (by rw [fragsL_length]; exact h)
  | .dict d, i, buf => by
    intro h
    simp only [componentCount] at h
    simp only [component, frags]
    rw [getD_take_of_lt _ _ _ _ h]
    exact compD_frags d i buf (Nat.lt_of_lt_of_le h (countD_le_fragsD d))

theorem compL_frags : ∀ (l : MList) (i : Nat) (buf : Bytes),
    i < (fragsL l).length → compL l i buf = (fragsL l).getD i []
  | .nil, i, buf => by
    intro h
    simp [fragsL] at h
  | .cons .null tl, i, buf => by
    intro h
    simp only [fragsL, List.length_cons] at h
    simp only [compL, fragsL]
    rcases Nat.eq_zero_or_pos i with hi | hi
    · subst hi
      simp
    · obtain ⟨j, rfl⟩ : ∃ j, i = j + 1 := ⟨i - 1, by omega⟩
      rw [if_pos (by omega), List.getD_cons_succ]
      exact compL_frags tl j buf (by omega)
  | .cons (.item x) tl, i, buf => by
    intro h
    simp only [fragsL, List.length_append, frags_length] at h
    simp only [compL, fragsL]
    rcases Nat.lt_or_ge i (componentCount x) with hi | hi
    · rw [if_neg (by omega), List.getD_append _ _ _ _ (by rw [frags_length]; exact hi)]
      exact component_frags x i buf hi
    · rw [if_pos hi, List.getD_append_right _ _ _ _ (by rw [frags_length]; exact hi),
        frags_length]
      exact compL_frags tl (i - componentCount x) buf (by omega)

theorem compD_frags : ∀ (d : MPairs) (i : Nat) (buf : Bytes),
    i < (fragsD d).length → compD d i buf = (fragsD d).getD i []
  | .nil, i, buf => by
    intro h
    simp [fragsD] at h
  | .cons .null .null tl, i, buf => by
    intro h
    simp only [fragsD, List.length_cons] at h
    simp only [compD, fragsD]
    match i with
    | 0 => simp
    | 1 => simp
    | j + 2 =>
      rw [if_pos (by omega), if_pos (by omega)]
      simp only [List.getD_cons_succ]
      exact compD_frags tl j buf (by omega)
  | .cons .null (.item v) tl, i, buf => by
    intro h
    simp only [fragsD, List.length_cons, List.length_append, frags_length] at h
    simp only [compD, fragsD]
    match i with
    | 0 => simp
    | j + 1 =>
      rw [if_pos (by omega)]
      simp only [Nat.add_sub_cancel, List.getD_cons_succ]
      rcases Nat.lt_or_ge j (componentCount v) with hj | hj
      · rw [if_neg (by omega), List.getD_append _ _ _ _ (by rw [frags_length]; exact hj)]
        exact component_frags v j buf hj
      · rw [if_pos hj, List.getD_append_right _ _ _ _ (by rw [frags_length]; exact hj),
          frags_length]
        exact compD_frags tl (j - componentCount v) buf (by omega)
  | .cons (.item k) .null tl, i, buf => by
    intro h
    simp only [fragsD, List.length_append, List.length_cons, frags_length] at h
    simp only [compD, fragsD]
    rcases Nat.lt_or_ge i (componentCount k) with hi | hi
    · rw [if_neg (by omega), List.getD_append _ _ _ _ (by rw [frags_length]; exact hi)]
      exact component_frags k i buf hi
    · rw [if_pos hi, List.getD_append_right _ _ _ _ (by rw [frags_length]; exact hi),
        frags_length]
      rcases Nat.eq_zero_or_pos (i - componentCount k) with hz | hz
      · rw [if_neg (by omega), hz]
        simp
      · obtain ⟨j, hj⟩ : ∃ j, i - componentCount k = j + 1 :=
          ⟨i - componentCount k - 1, by omega⟩
        rw [if_pos (by omega), hj, List.getD_cons_succ]
        simp only [Nat.add_sub_cancel]
        exact compD_frags tl j buf (by omega)
  | .cons (.item k) (.item v) tl, i, buf => by
    intro h
    simp only [fragsD, List.length_append, frags_length] at h
    simp only [compD, fragsD]
    rcases Nat.lt_or_ge i (componentCount k) with hi | hi
    · rw [if_neg (by omega), List.getD_append _ _ _ _ (by rw [frags_length]; exact hi)]
      exact component_frags k i buf hi
    · rw [if_pos hi, List.getD_append_right _ _ _ _ (by rw [frags_length]; exact hi),
        frags_length]
      rcases Nat.lt_or_ge (i - componentCount k) (componentCount v) with hj | hj
      · rw [if_neg (by omega), List.getD_append _ _ _ _ (by rw [frags_length]; exact hj)]
        exact component_frags v (i - componentCount k) buf hj
      · rw [if_pos hj, List.getD_append_right _ _ _ _ (by rw [frags_length]; exact hj),
          frags_length]
        exact compD_frags tl (i - componentCount k - componentCount v) buf (by omega)

end

end Bencode
namespace Bencode

theorem compareLoop_eq_cmpList (a b : Item) :
    ∀ (k i : Nat) (s1 s2 : Bytes),
      i + k = min (componentCount a) (componentCount b) →
      compareLoop a b k i s1 s2 =
        cmpList bytesCmp ((frags a).drop i) ((frags b).drop i) := by
  intro k
  induction k with
  | zero =>
    intro i s1 s2 hk
    simp only [Nat.add_zero] at hk
    subst hk
    simp only [compareLoop]
    rcases Nat.lt_trichotomy (componentCount a) (componentCount b) with h | h | h
    · rw [if_pos h]
      rw [Nat.min_eq_left (Nat.le_of_lt h)]
      rw [List.drop_of_length_le (by rw [frags_length])]
      have hb : 0 < ((frags b).drop (componentCount a)).length := by
        rw [List.length_drop, frags_length]
        omega
      cases hB : (frags b).drop (componentCount a) with
      | nil => rw [hB] at hb; simp at hb
      | cons z zs => simp [cmpList]
    · rw [if_neg (by omega), if_neg (by omega), h, Nat.min_self]
      rw [List.drop_of_length_le (by rw [frags_length, h]),
        List.drop_of_length_le (by rw [frags_length])]
      rfl
    · rw [if_neg (by omega), if_pos h]
      rw [Nat.min_eq_right (Nat.le_of_lt h)]
      rw [show (frags b).drop (componentCount b) = [] from
        List.drop_of_length_le (by rw [frags_length])]
      have ha : 0 < ((frags a).drop (componentCount b)).length := by
        rw [List.length_drop, frags_length]
        omega
      cases hA : (frags a).drop (componentCount b) with
      | nil => rw [hA] at ha; simp at ha
      | cons z zs => simp [cmpList]
  | succ k ih =>
    intro i s1 s2 hk
    have hia : i < componentCount a := by omega
    have hib : i < componentCount b := by omega
    simp only [compareLoop]
    rw [component_frags a i s1 hia, component_frags b i s2 hib]
    rw [drop_eq_getD_cons (frags a) [] i (by rw [frags_length]; exact hia),
      drop_eq_getD_cons (frags b) [] i (by rw [frags_length]; exact hib)]
    simp only [cmpList]
    cases hcm : bytesCmp ((frags a).getD i []) ((frags b).getD i [])
    · rfl
    · exact ih (i + 1) _ _ (by omega)
    · rfl

/-- `Item::compare` is exactly the lexicographic comparison of the two nodes'
reachable flattened fragment sequences. -/
theorem compare_eq_cmpList (a b : Item) :
    Item.compare a b = cmpList bytesCmp (frags a) (frags b) := by
  unfold Item.compare
  rw [compareLoop_eq_cmpList a b (min (componentCount a) (componentCount b)) 0
    [] [] (by omega)]
  simp

theorem compare_refl (a : Item) : Item.compare a a = .eq := by
  rw [compare_eq_cmpList]
  exact cmpList_refl bytesCmp bytesCmp_refl _

theorem compare_swap (a b : Item) :
    Item.compare a b = (Item.compare b a).swap := by
  rw [compare_eq_cmpList, compare_eq_cmpList]
  exact cmpList_swap bytesCmp bytesCmp_swap _ _

theorem compare_trans : CmpTrans Item.compare := by
  constructor <;> intro x y z h1 h2 <;>
    rw [compare_eq_cmpList] at h1 h2 ⊢
  · exact cmpList_eq_eq bytesCmp bytesCmp_trans h1 h2
  · exact cmpList_lt_lt bytesCmp bytesCmp_trans h1 h2
  · exact cmpList_eq_lt bytesCmp bytesCmp_trans h1 h2
  · exact cmpList_lt_eq bytesCmp bytesCmp_trans h1 h2

theorem compare_lt_iff_swap_gt (a b : Item) :
    Item.compare a b = .lt ↔ Item.compare b a = .gt := by
  rw [compare_swap a b]
  cases Item.compare b a <;> simp [Ordering.swap]

theorem compare_eq_comm {a b : Item} (h : Item.compare a b = .eq) :
    Item.compare b a = .eq := by
  rw [compare_swap b a, h]
  rfl

end Bencode
namespace Bencode

/-! ## Serializer (`write`)

`String::write` emits decimal length, `:`, raw bytes; `Integer::write` emits
`i`, decimal text, `e`; `List::write` and `Dictionary::write` bracket their
children with `l`/`d` and `e`, emitting the two-byte `bencodeNULLEntry`
sequence `0:` (bytes 48, 58) for every NULL child slot, key, or value. -/

mutual

def Item.write : Item → Bytes
  | .str s => itoaN s.length ++ (58 :: s)
  | .int n => 105 :: (itoaZ n ++ [101])
  | .list l => 108 :: (writeL l ++ [101])
  | .dict d => 100 :: (writeD d ++ [101])

def writeL : MList → Bytes
  | .nil => []
  | .cons .null tl => 48 :: 58 :: writeL tl
  | .cons (.item x) tl => Item.write x ++ writeL tl

def writeD : MPairs → Bytes
  | .nil => []
  | .cons .null .null tl => 48 :: 58 :: (48 :: 58 :: writeD tl)
  | .cons .null (.item v) tl => 48 :: 58 :: (Item.write v ++ writeD tl)
  | .cons (.item k) .null tl => Item.write k ++ (48 :: 58 :: writeD tl)
  | .cons (.item k) (.item v) tl => Item.write k ++ (Item.write v ++ writeD tl)

end

/-- The per-slot ternary of `List::write` and `Dictionary::write`:
`x ? x->write(out) : out.write(bencodeNULLEntry, sizeof(...))` — a NULL slot
emits exactly the two bytes `0:`, a non-NULL slot emits its own encoding. -/
def writeM : MItem → Bytes
  | .null => [48, 58]
  | .item x => Item.write x

theorem writeD_cons : ∀ (k v : MItem) (tl : MPairs),
    writeD (.cons k v tl) = writeM k ++ (writeM v ++ writeD tl)
  | .null, .null, _ => rfl
  | .null, .item _, _ => rfl
  | .item _, .null, _ => rfl
  | .item _, .item _, _ => rfl

/-! ## Node counts (heap allocations)

Every node of a tree is one `new` allocation; `delete` on an owning pointer
runs the destructors recursively, so deleting a tree releases `nodeCount` of
it.  NULL slots hold no allocation. -/

mutual

def nodeCount : Item → Nat
  | .str _ => 1
  | .int _ => 1
  | .list l => 1 + nodesL l
  | .dict d => 1 + nodesD d

def nodesL : MList → Nat
  | .nil => 0
  | .cons .null tl => nodesL tl
  | .cons (.item x) tl => nodeCount x + nodesL tl

def nodesD : MPairs → Nat
  | .nil => 0
  | .cons .null .null tl => nodesD tl
  | .cons .null (.item v) tl => nodeCount v + nodesD tl
  | .cons (.item k) .null tl => nodeCount k + nodesD tl
  | .cons (.item k) (.item v) tl => nodeCount k + nodeCount v + nodesD tl

end

/-- Allocation count of a possibly-NULL owned pointer. -/
def mnodes : MItem → Nat
  | .null => 0
  | .item x => nodeCount x

/-! ## Deep copy (`clone`)

`String::clone`, `Integer::clone` and `List::clone` copy structurally (a NULL
list slot is pushed as NULL).  `Dictionary::clone` in the source re-installs
each pair as `(*result)[first->clone()] = second->clone()` through
`operator[]`; on any dictionary satisfying the sortedness invariant that the
engine maintains (keys pairwise strictly ascending under the Comparator —
proved below), the re-installation appends the pairs in their stored order, so
the result is the structural pairwise copy used here.  No theorem below clones
a dictionary that violates the invariant (there the source's re-install would
additionally re-sort, collapse compare-equal keys, and leak the intermediate
key copies). -/

mutual

def clone : Item → Item
  | .str s => .str s
  | .int n => .int n
  | .list l => .list (cloneL l)
  | .dict d => .dict (cloneD d)

def cloneL : MList → MList
  | .nil => .nil
  | .cons .null tl => .cons .null (cloneL tl)
  | .cons (.item x) tl => .cons (.item (clone x)) (cloneL tl)

def cloneD : MPairs → MPairs
  | .nil => .nil
  | .cons .null .null tl => .cons .null .null (cloneD tl)
  | .cons .null (.item v) tl => .cons .null (.item (clone v)) (cloneD tl)
  | .cons (.item k) .null tl => .cons (.item (clone k)) .null (cloneD tl)
  | .cons (.item k) (.item v) tl =>
      .cons (.item (clone k)) (.item (clone v)) (cloneD tl)

end

/-! ## The Dictionary ordering engine

`Dictionary::_find(key, position)` advances `position` over the pair vector
while `key->compare(*position->first) > 0` and reports "found" when it stops
inside the vector at a pair whose key compares equal to `key` (the source
first checks raw pointer equality, which cannot hold for the fresh keys used
everywhere below, and returns "not found" when either key is NULL).  On a pair
whose key is NULL the loop's `key->compare(*position->first)` dereferences a
NULL pointer — undefined behaviour in the source; the model stops the scan
there and every theorem below only ever runs the engine on dictionaries whose
keys are all non-NULL, so that branch is never reached. -/

def dFindPos (k : Item) : MPairs → Nat
  | .nil => 0
  | .cons (.item e) _ tl =>
    if Item.compare k e = .gt then dFindPos k tl + 1 else 0
  | .cons .null _ _ => 0

def dFoundAt (k : Item) : MPairs → Bool
  | .nil => false
  | .cons (.item e) _ tl =>
    if Item.compare k e = .gt then dFoundAt k tl
    else decide (Item.compare e k = .eq)
  | .cons .null _ _ => false

/-- `std::vector::insert` at a position (always ≤ the length here). -/
def dInsertAt : Nat → MItem → MItem → MPairs → MPairs
  | 0, k, v, ps => .cons k v ps
  | _ + 1, k, v, .nil => .cons k v .nil
  | n + 1, k, v, .cons ek ev tl => .cons ek ev (dInsertAt n k v tl)

/-- Store a new value into the pair at a position (the old owned value is
deleted by `Assignment::operator=` before this store). -/
def dSetValAt : Nat → MItem → MPairs → MPairs
  | _, _, .nil => .nil
  | 0, v, .cons ek _ tl => .cons ek v tl
  | n + 1, v, .cons ek ev tl => .cons ek ev (dSetValAt n v tl)

/-- `std::vector::erase` at a position. -/
def dEraseAt : Nat → MPairs → MPairs
  | _, .nil => .nil
  | 0, .cons _ _ tl => tl
  | n + 1, .cons ek ev tl => .cons ek ev (dEraseAt n tl)

/-- The pair stored at a position. -/
def pairAt : Nat → MPairs → Option (MItem × MItem)
  | _, .nil => none
  | 0, .cons ek ev _ => some (ek, ev)
  | n + 1, .cons _ _ tl => pairAt n tl

/-- `Dictionary::operator[](Item::ConstPtr)`: find the key; when absent,
insert the pair `(key->clone(), NULL)` at the scan position and find again;
the returned `Assignment` handle is the pair vector together with the index of
the pair whose value slot it aliases. -/
def dAccess (ps : MPairs) (k : Item) : MPairs × Nat :=
  if dFoundAt k ps then (ps, dFindPos k ps)
  else
    let ps' := dInsertAt (dFindPos k ps) (.item (clone k)) .null ps
    (ps', dFindPos k ps')

/-- Indexing followed by `Assignment::operator=`: the handle's slot receives
`v` (the previously owned value, if any, is deleted first). -/
def dAssign (ps : MPairs) (k : Item) (v : MItem) : MPairs :=
  dSetValAt (dAccess ps k).2 v (dAccess ps k).1

/-- `Dictionary::has_key`: a lookup via `_find` only — it never inserts. -/
def has_key (ps : MPairs) (k : Item) : Bool := dFoundAt k ps

/-- `Dictionary::remove(key)`: erase the found pair (the value is handed back
to the caller, the key is deleted). -/
def dRemove (ps : MPairs) (k : Item) : MPairs :=
  if dFoundAt k ps then dEraseAt (dFindPos k ps) ps else ps

end Bencode
namespace Bencode

/-! ## `strtoimax`

Modelled from the documented C behaviour of `strtoimax(nptr, NULL, 10)` as
the source uses it (`Integer::Integer(const std::string&)` and the string
length conversion in `Item::_read`): skip leading white space, accept one
optional sign, consume the longest run of decimal digits, return the signed
value clamped to `[INTMAX_MIN, INTMAX_MAX]` on overflow, and 0 when no digit
is present. -/

def intmaxMax : Int := 2 ^ 63 - 1

def intmaxMin : Int := -(2 ^ 63)

def isDigitByte (b : Nat) : Bool := decide (48 ≤ b ∧ b ≤ 57)

def isSpaceByte (b : Nat) : Bool :=
  decide (b = 32 ∨ b = 9 ∨ b = 10 ∨ b = 11 ∨ b = 12 ∨ b = 13)

/-- Numeric value of a run of decimal digit characters. -/
def digitsVal (ds : Bytes) : Nat := ds.foldl (fun acc b => acc * 10 + (b - 48)) 0

def strtoimax (s : Bytes) : Int :=
  let s1 := s.dropWhile isSpaceByte
  let sign : Int := if s1.headD 0 = 45 then -1 else 1
  let s2 := if s1.headD 0 = 45 ∨ s1.headD 0 = 43 then s1.tail else s1
  let v : Int := sign * (digitsVal (s2.takeWhile isDigitByte) : Int)
  if v < intmaxMin then intmaxMin else if intmaxMax < v then intmaxMax else v

/-! ## The parser (`Item::read` / `Item::_read`)

The input is a `ReferencedStringInput`: reading one byte past the end of the
buffer yields `'\0'` and does not advance, so the remaining input is modelled
by the suffix list alone.  `read(n, storage)` assigns up to `n` bytes.

The `case 'i'` loop (`while ('e' != (byte = in.read())) buffer.append(byte)`)
terminates only when an `e` byte is actually read: once the source is
exhausted, `read()` returns `'\0'` forever and the loop never exits.
`intScan` therefore reports `none` exactly when the source runs out before an
`e`, and that outcome is propagated as `RRes.hang` — the source does not
return.  `RRes.hang` is also used when the recursion fuel runs out; fuel
`2 * length + 1` always suffices for inputs the grammar accepts (proved
below), so `decode` distinguishes the three real outcomes: a node, NULL, or
no return.

The state threaded through is the remaining input suffix and the live
allocation counter: `+1` for each `new`, `- nodeCount t` for each `delete`
of an owning pointer `t`. -/

/-- `ReferencedStringInput::read()`: one byte, `'\0'` at the end. -/
def read1 : Bytes → Nat × Bytes
  | [] => (0, [])
  | b :: rest => (b, rest)

/-- Result of `Item::_read`: either the call does not return (`hang`), or it
returns a possibly-NULL node with the remaining input and live counter. -/
inductive RRes : Type where
  | hang : RRes
  | res : Option Item → Bytes → Nat → RRes

/-- The integer-case loop: collect bytes until an `e` is read.  `none` means
the source ran out first, in which case the C++ loop never terminates. -/
def intScan : Bytes → Bytes → Option (Bytes × Bytes)
  | [], _ => none
  | b :: rest, acc =>
    if b = 101 then some (acc, rest) else intScan rest (acc ++ [b])

/-- The string-length do/while loop: `b` is the byte just read (checked to be
a digit, else NULL with the input as consumed so far), then the next byte is
read; a `:` ends the loop. -/
def digitScan (b : Nat) : Bytes → Bytes → Option Bytes × Bytes
  | rest, acc =>
    if isDigitByte b then
      match rest with
      | [] => (none, [])
      | r :: rs => if r = 58 then (some (acc ++ [b]), rs) else digitScan r rs (acc ++ [b])
    else (none, rest)

/-- `Dictionary::operator[](key) = value` as the parser's dictionary loop
performs it, with the allocation accounting of `operator[]` (clone of the key
when absent) and `Assignment::operator=` (delete of the previously owned
value).  The original `key` node is never freed by the source — its
allocation stays in the live counter. -/
def pInstall (ps : MPairs) (k : Item) (v : Item) (live : Nat) : MPairs × Nat :=
  let found := dFoundAt k ps
  let r := dAccess ps k
  let liveA := if found then live else live + nodeCount k
  let old := match pairAt r.2 r.1 with
    | some pr => mnodes pr.2
    | none => 0
  (dSetValAt r.2 (.item v) r.1, liveA - old)

/-- `std::vector::push_back` on the list under construction. -/
def mlistPush : MList → MItem → MList
  | .nil, x => .cons x .nil
  | .cons hd tl, x => .cons hd (mlistPush tl x)

/-- The three mutually recursive pieces of `Item::_read` — the tag dispatch
itself, the `case 'l'` while-loop with the list built so far, and the
`case 'd'` while-loop with the dictionary built so far — bundled as one
fuel-indexed step function so that the recursion is structural on the fuel
(`readItem`, `listLoop` and `dictLoop` below are the three named
projections). -/
inductive PMode : Type where
  | item : Nat → PMode
  | llist : MList → PMode
  | ddict : MPairs → PMode

def readStep : Nat → Bytes → Nat → PMode → RRes
  | 0, _, _, _ => .hang
  | fuel + 1, rest, live, .item ty =>
    if ty = 105 then
      match intScan rest [] with
      | none => .hang
      | some (buf, rest') => .res (some (.int (strtoimax buf))) rest' (live + 1)
    else if 48 ≤ ty ∧ ty ≤ 57 then
      match digitScan ty rest [] with
      | (none, rest') => .res none rest' live
      | (some buf, rest') =>
        let size := (strtoimax buf).toNat
        .res (some (.str (rest'.take size))) (rest'.drop size) (live + 1)
    else if ty = 108 then
      readStep fuel rest (live + 1) (.llist .nil)
    else if ty = 100 then
      readStep fuel rest (live + 1) (.ddict .nil)
    else
      .res none rest live
  | fuel + 1, rest, live, .llist acc =>
    let b := (read1 rest).1
    let rest1 := (read1 rest).2
    if b = 101 then .res (some (.list acc)) rest1 live
    else
      match readStep fuel rest1 live (.item b) with
      | .hang => .hang
      | .res none rest2 live2 => .res none rest2 (live2 - (1 + nodesL acc))
      | .res (some it) rest2 live2 =>
        readStep fuel rest2 live2 (.llist (mlistPush acc (.item it)))
  | fuel + 1, rest, live, .ddict acc =>
    let b := (read1 rest).1
    let rest1 := (read1 rest).2
    if b = 101 then .res (some (.dict acc)) rest1 live
    else
      match readStep fuel rest1 live (.item b) with
      | .hang => .hang
      | .res kOpt rest2 live2 =>
        let b2 := (read1 rest2).1
        let rest3 := (read1 rest2).2
        match readStep fuel rest3 live2 (.item b2) with
        | .hang => .hang
        | .res vOpt rest4 live4 =>
          match kOpt, vOpt with
          | some k, some v =>
            let r := pInstall acc k v live4
            readStep fuel rest4 r.2 (.ddict r.1)
          | _, _ =>
            .res none rest4
              (live4 - (1 + nodesD acc) - (match vOpt with
                | some v => nodeCount v
                | none => 0) - (match kOpt with
                | some k => nodeCount k
                | none => 0))

/-- `Item::_read(in, type, buffer)`: `ty` is the already-consumed tag byte. -/
def readItem (fuel : Nat) (rest : Bytes) (live ty : Nat) : RRes :=
  readStep fuel rest live (.item ty)

/-- The `case 'l'` loop: read a tag byte; `e` ends the list; otherwise parse a
child, deleting the list (and its children) when the child parse yields NULL. -/
def listLoop (fuel : Nat) (rest : Bytes) (acc : MList) (live : Nat) : RRes :=
  readStep fuel rest live (.llist acc)

/-- The `case 'd'` loop: read a key tag; `e` ends the dictionary; otherwise
parse a key and then unconditionally a value; if either is NULL, delete the
dictionary built so far, the value and the key; otherwise install the pair
through `operator[]`/`Assignment`. -/
def dictLoop (fuel : Nat) (rest : Bytes) (acc : MPairs) (live : Nat) : RRes :=
  readStep fuel rest live (.ddict acc)

theorem readItem_zero (rest : Bytes) (live ty : Nat) :
    readItem 0 rest live ty = .hang := rfl

theorem readItem_succ (fuel : Nat) (rest : Bytes) (live ty : Nat) :
    readItem (fuel + 1) rest live ty =
      (if ty = 105 then
        match intScan rest [] with
        | none => .hang
        | some (buf, rest') =>
          .res (some (.int (strtoimax buf))) rest' (live + 1)
      else if 48 ≤ ty ∧ ty ≤ 57 then
        match digitScan ty rest [] with
        | (none, rest') => .res none rest' live
        | (some buf, rest') =>
          .res (some (.str (rest'.take (strtoimax buf).toNat)))
            (rest'.drop (strtoimax buf).toNat) (live + 1)
      else if ty = 108 then
        listLoop fuel rest .nil (live + 1)
      else if ty = 100 then
        dictLoop fuel rest .nil (live + 1)
      else
        .res none rest live) := rfl

theorem listLoop_zero (rest : Bytes) (acc : MList) (live : Nat) :
    listLoop 0 rest acc live = .hang := rfl

theorem listLoop_succ (fuel : Nat) (rest : Bytes) (acc : MList) (live : Nat) :
    listLoop (fuel + 1) rest acc live =
      (if (read1 rest).1 = 101 then
        .res (some (.list acc)) (read1 rest).2 live
      else
        match readItem fuel (read1 rest).2 live (read1 rest).1 with
        | .hang => .hang
        | .res none rest2 live2 => .res none rest2 (live2 - (1 + nodesL acc))
        | .res (some it) rest2 live2 =>
          listLoop fuel rest2 (mlistPush acc (.item it)) live2) := rfl

theorem dictLoop_zero (rest : Bytes) (acc : MPairs) (live : Nat) :
    dictLoop 0 rest acc live = .hang := rfl

theorem dictLoop_succ (fuel : Nat) (rest : Bytes) (acc : MPairs) (live : Nat) :
    dictLoop (fuel + 1) rest acc live =
      (if (read1 rest).1 = 101 then
        .res (some (.dict acc)) (read1 rest).2 live
      else
        match readItem fuel (read1 rest).2 live (read1 rest).1 with
        | .hang => .hang
        | .res kOpt rest2 live2 =>
          match readItem fuel (read1 rest2).2 live2 (read1 rest2).1 with
          | .hang => .hang
          | .res vOpt rest4 live4 =>
            match kOpt, vOpt with
            | some k, some v =>
              dictLoop fuel rest4 (pInstall acc k v live4).1
                (pInstall acc k v live4).2
            | _, _ =>
              .res none rest4
                (live4 - (1 + nodesD acc) - (match vOpt with
                  | some v => nodeCount v
                  | none => 0) - (match kOpt with
                  | some k => nodeCount k
                  | none => 0))) := rfl

/-- `Item::read(in)`: read the first byte as the tag and dispatch, with a
fresh live counter. -/
def itemRead (fuel : Nat) (buf : Bytes) : RRes :=
  readItem fuel (read1 buf).2 0 (read1 buf).1

/-- Decode entry point at the canonical fuel, which suffices for every input
the grammar accepts. -/
def decode (w : Bytes) : RRes := itemRead (2 * w.length + 1) w

end Bencode
namespace Bencode

/-! ## Decimal text lemmas -/

theorem natDigitsCore_spec :
    ∀ (fuel n : Nat), n < fuel →
      (∃ d ds, natDigitsCore fuel n = d :: ds) ∧
      (∀ b ∈ natDigitsCore fuel n, 48 ≤ b ∧ b ≤ 57) ∧
      digitsVal (natDigitsCore fuel n) = n := by
  intro fuel
  induction fuel with
  | zero => intro n h; omega
  | succ fuel ih =>
    intro n h
    by_cases hn : n < 10
    · simp only [natDigitsCore, if_pos hn]
      refine ⟨⟨48 + n, [], rfl⟩, ?_, ?_⟩
      · intro b hb
        simp at hb
        omega
      · simp only [digitsVal, List.foldl_cons, List.foldl_nil]
        omega
    · have hd : n / 10 < fuel := by
        have := Nat.div_lt_self (by omega : 0 < n) (by omega : 1 < 10)
        omega
      obtain ⟨⟨d, ds, hds⟩, hdig, hval⟩ := ih (n / 10) hd
      simp only [natDigitsCore, if_neg hn]
      refine ⟨⟨d, ds ++ [48 + n % 10], by rw [hds]; rfl⟩, ?_, ?_⟩
      · intro b hb
        rw [List.mem_append] at hb
        rcases hb with hb | hb
        · exact hdig b hb
        · simp at hb
          have := Nat.mod_lt n (by omega : 0 < 10)
          omega
      · unfold digitsVal at hval ⊢
        rw [List.foldl_append]
        simp only [List.foldl_cons, List.foldl_nil]
        rw [hval]
        have := Nat.div_add_mod n 10
        omega

theorem itoaN_shape (n : Nat) :
    (∃ d ds, itoaN n = d :: ds) ∧ (∀ b ∈ itoaN n, 48 ≤ b ∧ b ≤ 57) ∧
      digitsVal (itoaN n) = n :=
  natDigitsCore_spec (n + 1) n (Nat.lt_succ_self n)

theorem itoaZ_bytes (v : Int) :
    ∀ b ∈ itoaZ v, (48 ≤ b ∧ b ≤ 57) ∨ b = 45 := by
  intro b hb
  unfold itoaZ at hb
  split at hb
  · rcases List.mem_cons.1 hb with hb | hb
    · right; exact hb
    · left; exact (itoaN_shape v.natAbs).2.1 b hb
  · left; exact (itoaN_shape v.natAbs).2.1 b hb

/-- Digit-only text: `strtoimax` consumes it all and clamps at
`INTMAX_MAX`. -/
theorem strtoimax_digits (ds : Bytes) (hne : ds ≠ [])
    (hd : ∀ b ∈ ds, 48 ≤ b ∧ b ≤ 57) :
    strtoimax ds = if intmaxMax < (digitsVal ds : Int)
      then intmaxMax else (digitsVal ds : Int) := by
  obtain ⟨d, ds', rfl⟩ := List.exists_cons_of_ne_nil hne
  have hdd := hd d (by simp)
  unfold strtoimax
  have hsp : isSpaceByte d = false := by
    simp [isSpaceByte]
    omega
  rw [List.dropWhile_cons, hsp]
  simp only [Bool.false_eq_true, if_false, List.headD_cons]
  have h45 : ¬(d = 45 ∨ d = 43) := by omega
  rw [if_neg (by omega : ¬d = 45), if_neg h45]
  have htw : (d :: ds').takeWhile isDigitByte = d :: ds' := by
    rw [List.takeWhile_eq_self_iff]
    intro b hb
    have := hd b hb
    simp [isDigitByte]
    omega
  rw [htw]
  have hnn : (0 : Int) ≤ (digitsVal (d :: ds') : Int) := Int.natCast_nonneg _
  rw [if_neg (by unfold intmaxMin; omega)]
  simp

/-- Minus sign followed by digit-only text: `strtoimax` clamps at
`INTMAX_MIN`. -/
theorem strtoimax_neg_digits (ds : Bytes)
    (hd : ∀ b ∈ ds, 48 ≤ b ∧ b ≤ 57) :
    strtoimax (45 :: ds) = if (-(digitsVal ds : Int)) < intmaxMin
      then intmaxMin else -(digitsVal ds : Int) := by
  unfold strtoimax
  have hsp : isSpaceByte 45 = false := by simp [isSpaceByte]
  rw [List.dropWhile_cons, hsp]
  simp only [Bool.false_eq_true, if_false, List.headD_cons, List.tail_cons,
    true_or, ite_true, neg_one_mul]
  have htw : ds.takeWhile isDigitByte = ds := by
    rw [List.takeWhile_eq_self_iff]
    intro b hb
    have := hd b hb
    simp [isDigitByte]
    omega
  rw [htw]
  have hnn : (0 : Int) ≤ (digitsVal ds : Int) := Int.natCast_nonneg _
  split
  · rfl
  · rw [if_neg (by unfold intmaxMax; omega)]

/-- Round trip for in-range integers: parsing the canonical text of `n` gives
back `n`. -/
theorem strtoimax_itoaZ (n : Int) (h1 : intmaxMin ≤ n) (h2 : n ≤ intmaxMax) :
    strtoimax (itoaZ n) = n := by
  by_cases hn : n < 0
  · rw [show itoaZ n = 45 :: itoaN n.natAbs from if_pos hn]
    obtain ⟨⟨d, ds, hds⟩, hdig, hval⟩ := itoaN_shape n.natAbs
    rw [strtoimax_neg_digits _ hdig, hval]
    rw [if_neg (by omega)]
    omega
  · rw [show itoaZ n = itoaN n.natAbs from if_neg hn]
    obtain ⟨⟨d, ds, hds⟩, hdig, hval⟩ := itoaN_shape n.natAbs
    rw [strtoimax_digits _ (by rw [hds]; simp) hdig, hval]
    rw [if_neg (by omega)]
    omega

/-- Round trip for string lengths (`size = strtoimax(length text)`). -/
theorem strtoimax_itoaN (L : Nat) (h : (L : Int) ≤ intmaxMax) :
    (strtoimax (itoaN L)).toNat = L := by
  obtain ⟨⟨d, ds, hds⟩, hdig, hval⟩ := itoaN_shape L
  rw [strtoimax_digits _ (by rw [hds]; simp) hdig, hval]
  rw [if_neg (by omega)]
  simp

end Bencode
namespace Bencode

/-! ## Well-formed wire byte sequences

A well-formed wire is the serialization of a wire parse tree `W`: strings with
their canonical decimal length, integers with canonical decimal text, lists
and dictionaries bracketed with their terminators — with the dictionary pairs
in arbitrary wire order.  `wfW` demands only what the machine representation
guarantees anyway: integers within `intmax_t` and string lengths within
`INTMAX_MAX`. -/

mutual

inductive W : Type where
  | ws : Bytes → W
  | wi : Int → W
  | wl : WL → W
  | wd : WD → W

inductive WL : Type where
  | nil : WL
  | cons : W → WL → WL

inductive WD : Type where
  | nil : WD
  | cons : W → W → WD → WD

end

mutual

def emit : W → Bytes
  | .ws s => itoaN s.length ++ (58 :: s)
  | .wi n => 105 :: (itoaZ n ++ [101])
  | .wl l => 108 :: (emitL l ++ [101])
  | .wd d => 100 :: (emitD d ++ [101])

def emitL : WL → Bytes
  | .nil => []
  | .cons hd tl => emit hd ++ emitL tl

def emitD : WD → Bytes
  | .nil => []
  | .cons k v tl => emit k ++ (emit v ++ emitD tl)

end

mutual

def wfW : W → Bool
  | .ws s => decide ((s.length : Int) ≤ intmaxMax)
  | .wi n => decide (intmaxMin ≤ n ∧ n ≤ intmaxMax)
  | .wl l => wfWL l
  | .wd d => wfWD d

def wfWL : WL → Bool
  | .nil => true
  | .cons hd tl => wfW hd && wfWL tl

def wfWD : WD → Bool
  | .nil => true
  | .cons k v tl => wfW k && (wfW v && wfWD tl)

end

/-! The tree a successful parse builds: strings and integers verbatim, list
children in encounter order, dictionary pairs installed one after the other
through `operator[]`/`Assignment` into the dictionary built so far. -/

mutual

def decW : W → Item
  | .ws s => .str s
  | .wi n => .int n
  | .wl l => .list (decWL l)
  | .wd d => .dict (instWD .nil d)

def decWL : WL → MList
  | .nil => .nil
  | .cons hd tl => .cons (.item (decW hd)) (decWL tl)

def instWD : MPairs → WD → MPairs
  | acc, .nil => acc
  | acc, .cons k v tl => instWD (dAssign acc (decW k) (.item (decW v))) tl

end

/-! Fuel cost of a parse: one unit per `_read` dispatch and per loop
iteration. -/

mutual

def costW : W → Nat
  | .ws _ => 1
  | .wi _ => 1
  | .wl l => 1 + costWL l
  | .wd d => 1 + costWD d

def costWL : WL → Nat
  | .nil => 1
  | .cons hd tl => 1 + costW hd + costWL tl

def costWD : WD → Nat
  | .nil => 1
  | .cons k v tl => 1 + costW k + costW v + costWD tl

end

/-- Append on the model of `std::vector<Item::Ptr>`. -/
def mlAppend : MList → MList → MList
  | .nil, ys => ys
  | .cons hd tl, ys => .cons hd (mlAppend tl ys)

theorem mlAppend_nil : ∀ l : MList, mlAppend l .nil = l
  | .nil => rfl
  | .cons hd tl => by rw [mlAppend, mlAppend_nil tl]

theorem mlistPush_append : ∀ (l : MList) (x : MItem) (ys : MList),
    mlAppend (mlistPush l x) ys = mlAppend l (.cons x ys)
  | .nil, x, ys => rfl
  | .cons hd tl, x, ys => by
    rw [mlistPush, mlAppend, mlistPush_append tl, mlAppend]

/-! ## Scan lemmas -/

theorem intScan_spec : ∀ (ds acc rest : Bytes), 101 ∉ ds →
    intScan (ds ++ 101 :: rest) acc = some (acc ++ ds, rest) := by
  intro ds
  induction ds with
  | nil => intro acc rest h; simp [intScan]
  | cons b bs ih =>
    intro acc rest h
    rw [List.mem_cons, not_or] at h
    rw [List.cons_append, intScan, if_neg (fun hb => h.1 hb.symm), ih _ _ h.2]
    simp

theorem digitScan_spec : ∀ (ds : Bytes) (d : Nat) (acc rest : Bytes),
    (48 ≤ d ∧ d ≤ 57) → (∀ b ∈ ds, 48 ≤ b ∧ b ≤ 57) →
    digitScan d (ds ++ 58 :: rest) acc = (some (acc ++ d :: ds), rest) := by
  intro ds
  induction ds with
  | nil =>
    intro d acc rest hd _
    rw [List.nil_append, digitScan, if_pos (by simp [isDigitByte]; omega)]
    simp
  | cons e es ih =>
    intro d acc rest hd hds
    have he := hds e (by simp)
    rw [List.cons_append, digitScan, if_pos (by simp [isDigitByte]; omega),
      if_neg (by omega : ¬e = 58)]
    rw [ih e (acc ++ [d]) rest he (fun b hb => hds b (by simp [hb]))]
    simp

/-- Every emitted form starts with a byte, and that byte is a tag the
dispatcher recognises — in particular it is never the terminator `e`. -/
theorem emit_shape : ∀ t : W, ∃ tg bd, emit t = tg :: bd ∧ tg ≠ 101 := by
  intro t
  cases t with
  | ws s =>
    obtain ⟨⟨d, ds, hds⟩, hdig, _⟩ := itoaN_shape s.length
    have hd := hdig d (by rw [hds]; simp)
    exact ⟨d, ds ++ (58 :: s), by rw [emit, hds]; simp, by omega⟩
  | wi n => exact ⟨105, _, rfl, by omega⟩
  | wl l => exact ⟨108, _, rfl, by omega⟩
  | wd d => exact ⟨100, _, rfl, by omega⟩

end Bencode
namespace Bencode

/-! ## The parser accepts every well-formed wire

Parsing `emit t ++ post` consumes exactly `emit t`, returns the node `decW t`
(dictionary pairs re-installed in Comparator order), and does not hang given
fuel at least `costW t`. -/

mutual

theorem readW_emit : ∀ (t : W) (tg : Nat) (bd post : Bytes) (live fuel : Nat),
    wfW t = true → costW t ≤ fuel → emit t = tg :: bd →
    ∃ lv, readItem fuel (bd ++ post) live tg = .res (some (decW t)) post lv
  | .ws s => by
    intro tg bd post live fuel hwf hcost hemit
    rw [wfW, decide_eq_true_eq] at hwf
    rw [costW] at hcost
    obtain ⟨f, rfl⟩ : ∃ f, fuel = f + 1 := ⟨fuel - 1, by omega⟩
    obtain ⟨⟨d0, ds, hds⟩, hdig, hval⟩ := itoaN_shape s.length
    rw [emit, hds, List.cons_append] at hemit
    obtain ⟨rfl, rfl⟩ := List.cons_eq_cons.mp hemit
    have hd0 := hdig d0 (by rw [hds]; simp)
    have hds' : ∀ b ∈ ds, 48 ≤ b ∧ b ≤ 57 := fun b hb =>
      hdig b (by rw [hds]; simp [hb])
    refine ⟨live + 1, ?_⟩
    rw [readItem_succ]
    rw [if_neg (by omega : ¬d0 = 105), if_pos (by omega : 48 ≤ d0 ∧ d0 ≤ 57)]
    rw [List.append_assoc, List.cons_append]
    simp only [digitScan_spec ds d0 [] (s ++ post) hd0 hds', List.nil_append]
    rw [← hds, strtoimax_itoaN s.length hwf]
    rw [List.take_left, List.drop_left]
    rfl
  | .wi n => by
    intro tg bd post live fuel hwf hcost hemit
    rw [wfW, decide_eq_true_eq] at hwf
    rw [costW] at hcost
    obtain ⟨f, rfl⟩ : ∃ f, fuel = f + 1 := ⟨fuel - 1, by omega⟩
    rw [emit] at hemit
    obtain ⟨rfl, rfl⟩ := List.cons_eq_cons.mp hemit.symm
    refine ⟨live + 1, ?_⟩
    rw [readItem_succ, if_pos rfl]
    rw [List.append_assoc, List.cons_append]
    simp only [intScan_spec (itoaZ n) [] post (fun hmem => by
      rcases itoaZ_bytes n 101 hmem with h | h <;> omega), List.nil_append]
    rw [strtoimax_itoaZ n hwf.1 hwf.2]
    rfl
  | .wl l => by
    intro tg bd post live fuel hwf hcost hemit
    rw [wfW] at hwf
    rw [costW] at hcost
    obtain ⟨f, rfl⟩ : ∃ f, fuel = f + 1 := ⟨fuel - 1, by omega⟩
    rw [emit] at hemit
    obtain ⟨rfl, rfl⟩ := List.cons_eq_cons.mp hemit.symm
    rw [readItem_succ]
    rw [if_neg (by omega : ¬(108 : Nat) = 105),
      if_neg (by omega : ¬(48 ≤ (108 : Nat) ∧ 108 ≤ 57)), if_pos rfl]
    rw [List.append_assoc, List.cons_append, List.nil_append]
    obtain ⟨lv, hrun⟩ := readWL_emit l post .nil (live + 1) f hwf (by omega)
    exact ⟨lv, by rw [hrun]; rfl⟩
  | .wd d => by
    intro tg bd post live fuel hwf hcost hemit
    rw [wfW] at hwf
    rw [costW] at hcost
    obtain ⟨f, rfl⟩ : ∃ f, fuel = f + 1 := ⟨fuel - 1, by omega⟩
    rw [emit] at hemit
    obtain ⟨rfl, rfl⟩ := List.cons_eq_cons.mp hemit.symm
    rw [readItem_succ]
    rw [if_neg (by omega : ¬(100 : Nat) = 105),
      if_neg (by omega : ¬(48 ≤ (100 : Nat) ∧ 100 ≤ 57)),
      if_neg (by omega : ¬(100 : Nat) = 108), if_pos rfl]
    rw [List.append_assoc, List.cons_append, List.nil_append]
    obtain ⟨lv, hrun⟩ := readWD_emit d post .nil (live + 1) f hwf (by omega)
    exact ⟨lv, by rw [hrun]; rfl⟩

theorem readWL_emit : ∀ (l : WL) (post : Bytes) (acc : MList) (live fuel : Nat),
    wfWL l = true → costWL l ≤ fuel →
    ∃ lv, listLoop fuel (emitL l ++ 101 :: post) acc live =
      .res (some (.list (mlAppend acc (decWL l)))) post lv
  | .nil => by
    intro post acc live fuel hwf hcost
    rw [costWL] at hcost
    obtain ⟨f, rfl⟩ : ∃ f, fuel = f + 1 := ⟨fuel - 1, by omega⟩
    refine ⟨live, ?_⟩
    rw [emitL, List.nil_append]
    rw [listLoop_succ]
    simp only [read1, if_pos]
    rw [decWL, mlAppend_nil]
  | .cons hd tl => by
    intro post acc live fuel hwf hcost
    rw [wfWL, Bool.and_eq_true] at hwf
    rw [costWL] at hcost
    obtain ⟨f, rfl⟩ : ∃ f, fuel = f + 1 := ⟨fuel - 1, by omega⟩
    obtain ⟨tg, bd, hsh, htg⟩ := emit_shape hd
    rw [emitL, List.append_assoc, hsh, List.cons_append]
    rw [listLoop_succ]
    simp only [read1]
    rw [if_neg htg]
    obtain ⟨lv1, hrun1⟩ := readW_emit hd tg bd (emitL tl ++ 101 :: post) live f
      hwf.1 (by omega) hsh
    simp only [hrun1]
    obtain ⟨lv2, hrun2⟩ := readWL_emit tl post
      (mlistPush acc (.item (decW hd))) lv1 f hwf.2 (by omega)
    refine ⟨lv2, ?_⟩
    rw [hrun2, mlistPush_append, decWL]

theorem readWD_emit : ∀ (d : WD) (post : Bytes) (acc : MPairs) (live fuel : Nat),
    wfWD d = true → costWD d ≤ fuel →
    ∃ lv, dictLoop fuel (emitD d ++ 101 :: post) acc live =
      .res (some (.dict (instWD acc d))) post lv
  | .nil => by
    intro post acc live fuel hwf hcost
    rw [costWD] at hcost
    obtain ⟨f, rfl⟩ : ∃ f, fuel = f + 1 := ⟨fuel - 1, by omega⟩
    refine ⟨live, ?_⟩
    rw [emitD, List.nil_append]
    rw [dictLoop_succ]
    simp only [read1, if_pos]
    rw [instWD]
  | .cons k v tl => by
    intro post acc live fuel hwf hcost
    rw [wfWD, Bool.and_eq_true, Bool.and_eq_true] at hwf
    rw [costWD] at hcost
    obtain ⟨f, rfl⟩ : ∃ f, fuel = f + 1 := ⟨fuel - 1, by omega⟩
    obtain ⟨tgk, bdk, hshk, htgk⟩ := emit_shape k
    obtain ⟨tgv, bdv, hshv, htgv⟩ := emit_shape v
    rw [emitD, List.append_assoc, hshk, List.cons_append]
    rw [dictLoop_succ]
    simp only [read1]
    rw [if_neg htgk, List.append_assoc]
    obtain ⟨lv1, hrun1⟩ := readW_emit k tgk bdk
      (emit v ++ (emitD tl ++ 101 :: post)) live f hwf.1 (by omega) hshk
    simp only [hrun1]
    rw [hshv]
    simp only [List.cons_append]
    obtain ⟨lv2, hrun2⟩ := readW_emit v tgv bdv (emitD tl ++ 101 :: post) lv1 f
      hwf.2.1 (by omega) hshv
    simp only [hrun2]
    obtain ⟨lv3, hrun3⟩ := readWD_emit tl post
      (dAssign acc (decW k) (.item (decW v)))
      (pInstall acc (decW k) (decW v) lv2).2 f hwf.2.2 (by omega)
    refine ⟨lv3, ?_⟩
    rw [show (pInstall acc (decW k) (decW v) lv2).1
        = dAssign acc (decW k) (.item (decW v)) from rfl, instWD]
    exact hrun3

end

end Bencode
namespace Bencode

/-! ## Fuel bound: the canonical decode fuel always suffices -/

mutual

theorem costW_le : ∀ t : W, costW t + 1 ≤ 2 * (emit t).length
  | .ws s => by
    obtain ⟨⟨d0, ds, hds⟩, _, _⟩ := itoaN_shape s.length
    rw [costW, emit, List.length_append, hds]
    simp only [List.length_cons]
    omega
  | .wi n => by
    rw [costW, emit]
    simp only [List.length_cons, List.length_append]
    omega
  | .wl l => by
    have := costWL_le l
    rw [costW, emit]
    simp only [List.length_cons, List.length_append]
    omega
  | .wd d => by
    have := costWD_le d
    rw [costW, emit]
    simp only [List.length_cons, List.length_append]
    omega

theorem costWL_le : ∀ l : WL, costWL l ≤ 2 * (emitL l).length + 2
  | .nil => by rw [costWL]; omega
  | .cons hd tl => by
    have h1 := costW_le hd
    have h2 := costWL_le tl
    rw [costWL, emitL, List.length_append]
    omega

theorem costWD_le : ∀ d : WD, costWD d ≤ 2 * (emitD d).length + 2
  | .nil => by rw [costWD]; omega
  | .cons k v tl => by
    have h1 := costW_le k
    have h2 := costW_le v
    have h3 := costWD_le tl
    rw [costWD, emitD, List.length_append, List.length_append]
    omega

end

/-- Decoding any well-formed wire at the canonical fuel succeeds and builds
exactly the re-installed tree. -/
theorem decode_emit (t : W) (hwf : wfW t = true) :
    ∃ lv, decode (emit t) = .res (some (decW t)) [] lv := by
  obtain ⟨tg, bd, hsh, _⟩ := emit_shape t
  have hcost : costW t ≤ 2 * (emit t).length + 1 := by
    have := costW_le t
    omega
  obtain ⟨lv, hrun⟩ := readW_emit t tg bd [] 0 (2 * (emit t).length + 1) hwf
    hcost hsh
  refine ⟨lv, ?_⟩
  rw [List.append_nil] at hrun
  rw [decode, itemRead, hsh]
  simp only [read1]
  rw [hsh] at hrun
  exact hrun

/-! ## The sortedness invariant of the Dictionary engine -/

/-- Strict Comparator order between two stored keys (never true when either
is NULL). -/
def keyLtB : MItem → MItem → Bool
  | .item a, .item b => decide (Item.compare a b = .lt)
  | .null, _ => false
  | .item _, .null => false

/-- Every key of the pair sequence is strictly above `e`. -/
def allLtB : MItem → MPairs → Bool
  | _, .nil => true
  | e, .cons ek _ tl => keyLtB e ek && allLtB e tl

/-- Keys pairwise strictly ascending under the Comparator (hence no two keys
compare equal). -/
def sortedKeysB : MPairs → Bool
  | .nil => true
  | .cons ek _ tl => allLtB ek tl && sortedKeysB tl

/-- Every key is a non-NULL node. -/
def keysItemB : MPairs → Bool
  | .nil => true
  | .cons (.item _) _ tl => keysItemB tl
  | .cons .null _ _ => false

/-- The Dictionary engine's representation invariant. -/
def dInvB (ps : MPairs) : Bool := keysItemB ps && sortedKeysB ps

/-- Number of stored pairs. -/
def lenP : MPairs → Nat
  | .nil => 0
  | .cons _ _ tl => lenP tl + 1

mutual

/-- Deep copy is the identity on the value level (`String`, `Integer` and
`List` clone structurally; a Dictionary satisfying the engine's invariant
re-installs to itself). -/
theorem clone_id : ∀ x : Item, clone x = x
  | .str _ => rfl
  | .int _ => rfl
  | .list l => by rw [clone, cloneL_id l]
  | .dict d => by rw [clone, cloneD_id d]

theorem cloneL_id : ∀ l : MList, cloneL l = l
  | .nil => rfl
  | .cons .null tl => by rw [cloneL, cloneL_id tl]
  | .cons (.item x) tl => by rw [cloneL, clone_id x, cloneL_id tl]

theorem cloneD_id : ∀ d : MPairs, cloneD d = d
  | .nil => rfl
  | .cons .null .null tl => by rw [cloneD, cloneD_id tl]
  | .cons .null (.item v) tl => by rw [cloneD, clone_id v, cloneD_id tl]
  | .cons (.item k) .null tl => by rw [cloneD, clone_id k, cloneD_id tl]
  | .cons (.item k) (.item v) tl => by
    rw [cloneD, clone_id k, clone_id v, cloneD_id tl]

end
end Bencode

namespace Bencode

theorem dFindPos_le (k : Item) : ∀ ps : MPairs, dFindPos k ps ≤ lenP ps
  | .nil => Nat.le_refl 0
  | .cons (.item e) _ tl => by
    rw [dFindPos, lenP]
    have := dFindPos_le k tl
    split <;> omega
  | .cons .null _ _ => by
    rw [dFindPos, lenP]
    omega

theorem dFindPos_insert_self (k : Item) : ∀ ps : MPairs,
    dFoundAt k ps = false →
    dFindPos k (dInsertAt (dFindPos k ps) (.item (clone k)) .null ps) =
      dFindPos k ps
  | .nil => by
    intro _
    simp [dFindPos, dInsertAt, clone_id, compare_refl]
  | .cons .null ev tl => by
    intro _
    simp [dFindPos, dInsertAt, clone_id, compare_refl]
  | .cons (.item e) ev tl => by
    intro hnf
    simp only [dFindPos, dFoundAt] at hnf ⊢
    by_cases hgt : Item.compare k e = .gt
    · rw [if_pos hgt] at hnf ⊢
      simp only [dInsertAt, dFindPos, if_pos hgt,
        dFindPos_insert_self k tl hnf]
    · rw [if_neg hgt] at hnf ⊢
      simp [dInsertAt, dFindPos, clone_id, compare_refl]

theorem pairAt_insert (x y : MItem) : ∀ (ps : MPairs) (n : Nat),
    n ≤ lenP ps → pairAt n (dInsertAt n x y ps) = some (x, y)
  | .nil, n => by
    intro hn
    rw [lenP] at hn
    obtain rfl : n = 0 := by omega
    rfl
  | .cons ek ev tl, 0 => fun _ => rfl
  | .cons ek ev tl, m + 1 => by
    intro hn
    rw [lenP] at hn
    rw [dInsertAt, pairAt]
    exact pairAt_insert x y tl m (by omega)

theorem allLtB_insert (e x y : MItem) (hlt : keyLtB e x = true) :
    ∀ (ps : MPairs) (n : Nat), allLtB e ps = true →
      allLtB e (dInsertAt n x y ps) = true
  | .nil, n => by
    intro _
    cases n <;> simp [dInsertAt, allLtB, hlt]
  | .cons ek ev tl, 0 => by
    intro hall
    rw [allLtB, Bool.and_eq_true] at hall
    rw [dInsertAt, allLtB, hlt, allLtB, hall.1, hall.2]
    rfl
  | .cons ek ev tl, m + 1 => by
    intro hall
    rw [allLtB, Bool.and_eq_true] at hall
    rw [dInsertAt, allLtB, hall.1, allLtB_insert e x y hlt tl m hall.2]
    rfl

theorem allLtB_of_lt {a b : Item} (h : Item.compare a b = .lt) :
    ∀ ps : MPairs, allLtB (.item b) ps = true → allLtB (.item a) ps = true
  | .nil => fun _ => rfl
  | .cons ek ev tl => by
    intro hall
    rw [allLtB, Bool.and_eq_true] at hall
    rw [allLtB, allLtB_of_lt h tl hall.2, Bool.and_true]
    obtain ⟨hb, -⟩ := hall
    cases ek with
    | null => exact absurd hb (by rw [keyLtB]; simp)
    | item c =>
      rw [keyLtB, decide_eq_true_eq] at hb ⊢
      exact compare_trans.lt_lt h hb


theorem keysItemB_insert (k : Item) (y : MItem) : ∀ (ps : MPairs) (n : Nat),
    keysItemB ps = true → keysItemB (dInsertAt n (.item k) y ps) = true
  | .nil, n => by
    intro _
    cases n <;> rfl
  | .cons .null ev tl, n => by
    intro hk
    exact absurd hk (by rw [keysItemB]; simp)
  | .cons (.item e) ev tl, 0 => by
    intro hk
    rw [keysItemB] at hk
    rw [dInsertAt, keysItemB, keysItemB]
    exact hk
  | .cons (.item e) ev tl, m + 1 => by
    intro hk
    rw [keysItemB] at hk
    rw [dInsertAt, keysItemB]
    exact keysItemB_insert k y tl m hk

theorem dInv_insert (k : Item) : ∀ ps : MPairs, dInvB ps = true →
    dFoundAt k ps = false →
    dInvB (dInsertAt (dFindPos k ps) (.item k) .null ps) = true
  | .nil => fun _ _ => rfl
  | .cons .null ev tl => by
    intro hinv _
    rw [dInvB, Bool.and_eq_true] at hinv
    exact absurd hinv.1 (by rw [keysItemB]; simp)
  | .cons (.item e) ev tl => by
    intro hinv hnf
    rw [dInvB, Bool.and_eq_true] at hinv
    obtain ⟨hkeys, hsort⟩ := hinv
    rw [keysItemB] at hkeys
    rw [sortedKeysB, Bool.and_eq_true] at hsort
    rw [dFoundAt] at hnf
    rw [dFindPos]
    by_cases hgt : Item.compare k e = .gt
    · rw [if_pos hgt] at hnf ⊢
      rw [dInsertAt, dInvB, keysItemB, sortedKeysB]
      have hlt : keyLtB (.item e) (.item k) = true := by
        rw [keyLtB, decide_eq_true_eq]
        have hsw := compare_swap k e
        rw [hgt] at hsw
        cases hek : Item.compare e k <;> rw [hek] at hsw <;>
          simp [Ordering.swap] at hsw ⊢
      have hih := dInv_insert k tl (by rw [dInvB, hkeys, hsort.2]; rfl) hnf
      rw [dInvB, Bool.and_eq_true] at hih
      rw [hih.1, allLtB_insert _ _ _ hlt _ _ hsort.1, hih.2]
      rfl
    · rw [if_neg hgt] at hnf ⊢
      have hne : ¬Item.compare e k = .eq := by
        intro he
        rw [he] at hnf
        simp at hnf
      have hklt : Item.compare k e = .lt := by
        cases hke : Item.compare k e
        · rfl
        · exact absurd (compare_eq_comm hke) hne
        · exact absurd hke hgt
      rw [dInsertAt, dInvB, Bool.and_eq_true]
      refine ⟨by rw [keysItemB, keysItemB]; exact hkeys, ?_⟩
      rw [sortedKeysB, Bool.and_eq_true]
      refine ⟨?_, by rw [sortedKeysB, hsort.1, hsort.2]; rfl⟩
      rw [allLtB, Bool.and_eq_true]
      exact ⟨by rw [keyLtB, decide_eq_true_eq]; exact hklt,
        allLtB_of_lt hklt _ hsort.1⟩

theorem allLtB_setVal (e v : MItem) : ∀ (ps : MPairs) (n : Nat),
    allLtB e (dSetValAt n v ps) = allLtB e ps
  | .nil, n => by cases n <;> rfl
  | .cons ek ev tl, 0 => by rw [dSetValAt, allLtB, allLtB]
  | .cons ek ev tl, m + 1 => by
    rw [dSetValAt, allLtB, allLtB, allLtB_setVal e v tl m]

theorem sortedKeysB_setVal (v : MItem) : ∀ (ps : MPairs) (n : Nat),
    sortedKeysB (dSetValAt n v ps) = sortedKeysB ps
  | .nil, n => by cases n <;> rfl
  | .cons ek ev tl, 0 => by rw [dSetValAt, sortedKeysB, sortedKeysB]
  | .cons ek ev tl, m + 1 => by
    rw [dSetValAt, sortedKeysB, sortedKeysB, sortedKeysB_setVal v tl m,
      allLtB_setVal]

theorem keysItemB_setVal (v : MItem) : ∀ (ps : MPairs) (n : Nat),
    keysItemB (dSetValAt n v ps) = keysItemB ps
  | .nil, n => by cases n <;> rfl
  | .cons .null ev tl, 0 => rfl
  | .cons .null ev tl, m + 1 => by rw [dSetValAt, keysItemB, keysItemB]
  | .cons (.item e) ev tl, 0 => rfl
  | .cons (.item e) ev tl, m + 1 => by
    rw [dSetValAt, keysItemB, keysItemB, keysItemB_setVal v tl m]

theorem allLtB_erase (e : MItem) : ∀ (ps : MPairs) (n : Nat),
    allLtB e ps = true → allLtB e (dEraseAt n ps) = true
  | .nil, n => by intro _; cases n <;> rfl
  | .cons ek ev tl, 0 => by
    intro hall
    rw [allLtB, Bool.and_eq_true] at hall
    exact hall.2
  | .cons ek ev tl, m + 1 => by
    intro hall
    rw [allLtB, Bool.and_eq_true] at hall
    rw [dEraseAt, allLtB, hall.1, allLtB_erase e tl m hall.2]
    rfl

theorem sortedKeysB_erase : ∀ (ps : MPairs) (n : Nat),
    sortedKeysB ps = true → sortedKeysB (dEraseAt n ps) = true
  | .nil, n => by intro _; cases n <;> rfl
  | .cons ek ev tl, 0 => by
    intro hs
    rw [sortedKeysB, Bool.and_eq_true] at hs
    exact hs.2
  | .cons ek ev tl, m + 1 => by
    intro hs
    rw [sortedKeysB, Bool.and_eq_true] at hs
    rw [dEraseAt, sortedKeysB, allLtB_erase _ _ _ hs.1,
      sortedKeysB_erase tl m hs.2]
    rfl

theorem keysItemB_erase : ∀ (ps : MPairs) (n : Nat),
    keysItemB ps = true → keysItemB (dEraseAt n ps) = true
  | .nil, n => by intro _; cases n <;> rfl
  | .cons .null ev tl, n => by
    intro hk
    exact absurd hk (by rw [keysItemB]; simp)
  | .cons (.item e) ev tl, 0 => by
    intro hk
    rw [keysItemB] at hk
    exact hk
  | .cons (.item e) ev tl, m + 1 => by
    intro hk
    rw [keysItemB] at hk
    rw [dEraseAt, keysItemB]
    exact keysItemB_erase tl m hk

/-- `operator[]` preserves the invariant. -/
theorem dInv_access (ps : MPairs) (k : Item) (h : dInvB ps = true) :
    dInvB (dAccess ps k).1 = true := by
  rw [dAccess]
  by_cases hf : dFoundAt k ps = true
  · rw [if_pos hf]
    exact h
  · rw [if_neg hf]
    have := dInv_insert k ps h (by simpa using hf)
    rw [clone_id]
    exact this

/-- Key-indexed assignment preserves the invariant. -/
theorem dInv_assign (ps : MPairs) (k : Item) (v : MItem)
    (h : dInvB ps = true) : dInvB (dAssign ps k v) = true := by
  rw [dAssign]
  have h1 := dInv_access ps k h
  rw [dInvB, Bool.and_eq_true] at h1 ⊢
  rw [keysItemB_setVal, sortedKeysB_setVal]
  exact h1

/-- `remove` preserves the invariant. -/
theorem dInv_remove (ps : MPairs) (k : Item) (h : dInvB ps = true) :
    dInvB (dRemove ps k) = true := by
  rw [dRemove]
  split
  · rw [dInvB, Bool.and_eq_true] at h ⊢
    exact ⟨keysItemB_erase _ _ h.1, sortedKeysB_erase _ _ h.2⟩
  · exact h

end Bencode
namespace Bencode

/-! ## Sequences of Dictionary operations (for the standing invariant) -/

/-- One key-indexed Dictionary operation: assignment through `operator[]` and
the `Assignment` proxy, a bare `operator[]` access (which may insert), or
`remove`. -/
inductive DOp : Type where
  | assign : Item → MItem → DOp
  | access : Item → DOp
  | remove : Item → DOp

def applyOp (ps : MPairs) : DOp → MPairs
  | .assign k v => dAssign ps k v
  | .access k => (dAccess ps k).1
  | .remove k => dRemove ps k

/-- Run a finite operation sequence against the empty Dictionary. -/
def runOps (ops : List DOp) : MPairs := ops.foldl applyOp .nil

mutual

/-- Constructible keys: every Dictionary inside satisfies the engine's
invariant (non-NULL keys, strictly ascending under the Comparator).  Trees
obtained from the constructors and the engine's own operations always satisfy
this; it is what makes `Dictionary::clone` (used by `operator[]` on the key)
the structural copy. -/
def wfItem : Item → Bool
  | .str _ => true
  | .int _ => true
  | .list l => wfItemL l
  | .dict d => keysItemB d && (sortedKeysB d && wfItemD d)

def wfItemL : MList → Bool
  | .nil => true
  | .cons .null tl => wfItemL tl
  | .cons (.item x) tl => wfItem x && wfItemL tl

def wfItemD : MPairs → Bool
  | .nil => true
  | .cons .null .null tl => wfItemD tl
  | .cons .null (.item v) tl => wfItem v && wfItemD tl
  | .cons (.item k) .null tl => wfItem k && wfItemD tl
  | .cons (.item k) (.item v) tl => wfItem k && (wfItem v && wfItemD tl)

end

def opWfB : DOp → Bool
  | .assign k _ => wfItem k
  | .access k => wfItem k
  | .remove k => wfItem k

def opsWfB (ops : List DOp) : Bool := ops.all opWfB

theorem dInv_applyOp (ps : MPairs) (op : DOp) (h : dInvB ps = true) :
    dInvB (applyOp ps op) = true := by
  cases op with
  | assign k v => exact dInv_assign ps k v h
  | access k => exact dInv_access ps k h
  | remove k => exact dInv_remove ps k h

theorem dInv_runOps (ops : List DOp) : dInvB (runOps ops) = true := by
  rw [runOps]
  have h : ∀ (l : List DOp) (ps : MPairs), dInvB ps = true →
      dInvB (l.foldl applyOp ps) = true := by
    intro l
    induction l with
    | nil => intro ps h; exact h
    | cons op l ih =>
      intro ps h
      rw [List.foldl_cons]
      exact ih _ (dInv_applyOp ps op h)
  exact h ops .nil rfl

/-! ## Appending installs to a sorted Dictionary

Installing a key strictly above every stored key appends the pair at the end;
folding installs over pairs that are already strictly ascending therefore
rebuilds them in order.  This is what makes already-sorted wires decode to
the same pair order and re-encode byte-identically. -/

def pAppend : MPairs → MPairs → MPairs
  | .nil, ps => ps
  | .cons ek ev tl, ps => .cons ek ev (pAppend tl ps)

theorem pAppend_nil : ∀ acc : MPairs, pAppend acc .nil = acc
  | .nil => rfl
  | .cons ek ev tl => by rw [pAppend, pAppend_nil tl]

theorem pAppend_assoc : ∀ a b c : MPairs,
    pAppend (pAppend a b) c = pAppend a (pAppend b c)
  | .nil, b, c => rfl
  | .cons ek ev tl, b, c => by
    rw [pAppend, pAppend, pAppend, pAppend_assoc tl]

theorem pAppend_single (k v : MItem) (tl : MPairs) :
    ∀ acc : MPairs, pAppend (pAppend acc (.cons k v .nil)) tl =
      pAppend acc (.cons k v tl) := by
  intro acc
  rw [pAppend_assoc]
  rfl

end Bencode
namespace Bencode

theorem allLtB_append (x : MItem) : ∀ a b : MPairs,
    allLtB x (pAppend a b) = (allLtB x a && allLtB x b)
  | .nil, b => by rw [pAppend, allLtB, Bool.true_and]
  | .cons ek ev tl, b => by
    rw [pAppend, allLtB, allLtB, allLtB_append x tl b, Bool.and_assoc]

theorem pAppend_cons_shape : ∀ (acc : MPairs) (k v : MItem) (tl : MPairs),
    ∃ a b c, pAppend acc (.cons k v tl) = .cons a b c
  | .nil, k, v, tl => ⟨k, v, tl, rfl⟩
  | .cons ek ev a, k, v, tl => ⟨ek, ev, pAppend a (.cons k v tl), rfl⟩

/-- When every key of `acc` sits strictly below `k` (which is what sortedness
of `acc` followed by a pair keyed `k` says), the `_find` scan for `k` runs off
the end of `acc` without finding it. -/
theorem findPos_of_sorted_append (k : Item) (v : MItem) (tl : MPairs) :
    ∀ acc : MPairs,
      sortedKeysB (pAppend acc (.cons (.item k) v tl)) = true →
      dFindPos k acc = lenP acc ∧ dFoundAt k acc = false
  | .nil => fun _ => ⟨rfl, rfl⟩
  | .cons .null ev acc => by
    intro hs
    rw [pAppend, sortedKeysB, Bool.and_eq_true] at hs
    obtain ⟨a, b, c, hshape⟩ := pAppend_cons_shape acc (.item k) v tl
    rw [hshape, allLtB, keyLtB] at hs
    exact absurd hs.1 (by simp)
  | .cons (.item e) ev acc => by
    intro hs
    rw [pAppend, sortedKeysB, Bool.and_eq_true] at hs
    obtain ⟨hall, hsort⟩ := hs
    rw [allLtB_append, Bool.and_eq_true] at hall
    have hek : Item.compare e k = .lt := by
      have := hall.2
      rw [allLtB, Bool.and_eq_true, keyLtB, decide_eq_true_eq] at this
      exact this.1
    have hke : Item.compare k e = .gt := by
      have hsw := compare_swap k e
      rw [hek] at hsw
      cases hkk : Item.compare k e <;> rw [hkk] at hsw <;>
        simp [Ordering.swap] at hsw ⊢
    obtain ⟨ih1, ih2⟩ := findPos_of_sorted_append k v tl acc hsort
    constructor
    · rw [dFindPos, if_pos hke, ih1, lenP]
    · rw [dFoundAt, if_pos hke, ih2]

theorem dInsertAt_end : ∀ (acc : MPairs) (x y : MItem),
    dInsertAt (lenP acc) x y acc = pAppend acc (.cons x y .nil)
  | .nil, x, y => rfl
  | .cons ek ev tl, x, y => by
    rw [lenP, dInsertAt, pAppend, dInsertAt_end tl]

theorem dSetValAt_end : ∀ (acc : MPairs) (x y v : MItem),
    dSetValAt (lenP acc) v (pAppend acc (.cons x y .nil)) =
      pAppend acc (.cons x v .nil)
  | .nil, x, y, v => rfl
  | .cons ek ev tl, x, y, v => by
    rw [lenP, pAppend, dSetValAt, pAppend, dSetValAt_end tl]

/-- Installing a key strictly above every stored key appends the pair. -/
theorem dAssign_append (acc : MPairs) (k : Item) (v : MItem)
    (h1 : dFindPos k acc = lenP acc) (h2 : dFoundAt k acc = false) :
    dAssign acc k v = pAppend acc (.cons (.item k) v .nil) := by
  rw [dAssign, dAccess, if_neg (by rw [h2]; simp)]
  simp only
  rw [dFindPos_insert_self k acc h2, h1, clone_id, dInsertAt_end,
    dSetValAt_end]

/-- The pair list a dictionary parse builds from wire pairs `d` on top of
`acc`. -/
def wdPairs : WD → MPairs
  | .nil => .nil
  | .cons k v tl => .cons (.item (decW k)) (.item (decW v)) (wdPairs tl)

/-- Folding the parser's installs over wire pairs whose keys arrive already
strictly ascending (relative to the accumulated pairs) appends them in
order. -/
theorem instWD_append : ∀ (d : WD) (acc : MPairs),
    sortedKeysB (pAppend acc (wdPairs d)) = true →
    instWD acc d = pAppend acc (wdPairs d)
  | .nil => by
    intro acc _
    rw [instWD, wdPairs, pAppend_nil]
  | .cons k v tl => by
    intro acc hs
    rw [wdPairs] at hs
    obtain ⟨h1, h2⟩ := findPos_of_sorted_append (decW k) (.item (decW v))
      (wdPairs tl) acc hs
    rw [instWD, dAssign_append acc (decW k) (.item (decW v)) h1 h2]
    rw [instWD_append tl _ (by rw [pAppend_single]; exact hs)]
    rw [pAppend_single, wdPairs]

end Bencode
namespace Bencode

/-! ## Valid document trees and their round trip -/

mutual

/-- A validly constructed tree with no NULL slots anywhere: every Dictionary
sorted with strictly ascending non-NULL keys, integers within `intmax_t`,
string lengths within `INTMAX_MAX` (true of any real `std::string`). -/
def validB : Item → Bool
  | .str s => decide ((s.length : Int) ≤ intmaxMax)
  | .int n => decide (intmaxMin ≤ n ∧ n ≤ intmaxMax)
  | .list l => validL l
  | .dict d => sortedKeysB d && validD d

def validL : MList → Bool
  | .nil => true
  | .cons .null _ => false
  | .cons (.item x) tl => validB x && validL tl

def validD : MPairs → Bool
  | .nil => true
  | .cons (.item k) (.item v) tl => validB k && (validB v && validD tl)
  | .cons .null _ _ => false
  | .cons (.item _) .null _ => false

end

/-! The wire parse tree of a valid document tree (NULL slots cannot occur in
a valid tree; the placeholder alternatives are never reached). -/

mutual

def toW : Item → W
  | .str s => .ws s
  | .int n => .wi n
  | .list l => .wl (toWL l)
  | .dict d => .wd (toWD d)

def toWL : MList → WL
  | .nil => .nil
  | .cons .null tl => .cons (.ws []) (toWL tl)
  | .cons (.item x) tl => .cons (toW x) (toWL tl)

def toWD : MPairs → WD
  | .nil => .nil
  | .cons (.item k) (.item v) tl => .cons (toW k) (toW v) (toWD tl)
  | .cons .null .null tl => .cons (.ws []) (.ws []) (toWD tl)
  | .cons .null (.item v) tl => .cons (.ws []) (toW v) (toWD tl)
  | .cons (.item k) .null tl => .cons (toW k) (.ws []) (toWD tl)

end

mutual

theorem write_toW : ∀ x : Item, validB x = true → Item.write x = emit (toW x)
  | .str s => fun _ => rfl
  | .int n => fun _ => rfl
  | .list l => by
    intro h
    rw [validB] at h
    rw [Item.write, toW, emit, writeL_toWL l h]
  | .dict d => by
    intro h
    rw [validB, Bool.and_eq_true] at h
    rw [Item.write, toW, emit, writeD_toWD d h.2]

theorem writeL_toWL : ∀ l : MList, validL l = true →
    writeL l = emitL (toWL l)
  | .nil => fun _ => rfl
  | .cons .null tl => by
    intro h
    exact absurd h (by rw [validL]; simp)
  | .cons (.item x) tl => by
    intro h
    rw [validL, Bool.and_eq_true] at h
    rw [writeL, toWL, emitL, write_toW x h.1, writeL_toWL tl h.2]

theorem writeD_toWD : ∀ d : MPairs, validD d = true →
    writeD d = emitD (toWD d)
  | .nil => fun _ => rfl
  | .cons (.item k) (.item v) tl => by
    intro h
    rw [validD, Bool.and_eq_true, Bool.and_eq_true] at h
    rw [writeD, toWD, emitD, write_toW k h.1, write_toW v h.2.1,
      writeD_toWD tl h.2.2]
  | .cons .null .null tl => by
    intro h
    exact absurd h (by rw [validD]; simp)
  | .cons .null (.item v) tl => by
    intro h
    exact absurd h (by rw [validD]; simp)
  | .cons (.item k) .null tl => by
    intro h
    exact absurd h (by rw [validD]; simp)

end

mutual

theorem wfW_toW : ∀ x : Item, validB x = true → wfW (toW x) = true
  | .str s => by
    intro h
    rw [validB] at h
    rw [toW, wfW]
    exact h
  | .int n => by
    intro h
    rw [validB] at h
    rw [toW, wfW]
    exact h
  | .list l => by
    intro h
    rw [validB] at h
    rw [toW, wfW]
    exact wfWL_toWL l h
  | .dict d => by
    intro h
    rw [validB, Bool.and_eq_true] at h
    rw [toW, wfW]
    exact wfWD_toWD d h.2

theorem wfWL_toWL : ∀ l : MList, validL l = true → wfWL (toWL l) = true
  | .nil => fun _ => rfl
  | .cons .null tl => by
    intro h
    exact absurd h (by rw [validL]; simp)
  | .cons (.item x) tl => by
    intro h
    rw [validL, Bool.and_eq_true] at h
    rw [toWL, wfWL, wfW_toW x h.1, wfWL_toWL tl h.2]
    rfl

theorem wfWD_toWD : ∀ d : MPairs, validD d = true → wfWD (toWD d) = true
  | .nil => fun _ => rfl
  | .cons (.item k) (.item v) tl => by
    intro h
    rw [validD, Bool.and_eq_true, Bool.and_eq_true] at h
    rw [toWD, wfWD, wfW_toW k h.1, wfW_toW v h.2.1, wfWD_toWD tl h.2.2]
    rfl
  | .cons .null .null tl => by
    intro h
    exact absurd h (by rw [validD]; simp)
  | .cons .null (.item v) tl => by
    intro h
    exact absurd h (by rw [validD]; simp)
  | .cons (.item k) .null tl => by
    intro h
    exact absurd h (by rw [validD]; simp)

end

mutual

theorem decW_toW : ∀ x : Item, validB x = true → decW (toW x) = x
  | .str s => fun _ => rfl
  | .int n => fun _ => rfl
  | .list l => by
    intro h
    rw [validB] at h
    rw [toW, decW, decWL_toWL l h]
  | .dict d => by
    intro h
    rw [validB, Bool.and_eq_true] at h
    rw [toW, decW]
    have hp : wdPairs (toWD d) = d := wdPairs_toWD d h.2
    rw [instWD_append (toWD d) .nil (by rw [pAppend, hp]; exact h.1)]
    rw [pAppend, hp]

theorem decWL_toWL : ∀ l : MList, validL l = true → decWL (toWL l) = l
  | .nil => fun _ => rfl
  | .cons .null tl => by
    intro h
    exact absurd h (by rw [validL]; simp)
  | .cons (.item x) tl => by
    intro h
    rw [validL, Bool.and_eq_true] at h
    rw [toWL, decWL, decW_toW x h.1, decWL_toWL tl h.2]

theorem wdPairs_toWD : ∀ d : MPairs, validD d = true → wdPairs (toWD d) = d
  | .nil => fun _ => rfl
  | .cons (.item k) (.item v) tl => by
    intro h
    rw [validD, Bool.and_eq_true, Bool.and_eq_true] at h
    rw [toWD, wdPairs, decW_toW k h.1, decW_toW v h.2.1,
      wdPairs_toWD tl h.2.2]
  | .cons .null .null tl => by
    intro h
    exact absurd h (by rw [validD]; simp)
  | .cons .null (.item v) tl => by
    intro h
    exact absurd h (by rw [validD]; simp)
  | .cons (.item k) .null tl => by
    intro h
    exact absurd h (by rw [validD]; simp)

end

end Bencode
namespace Bencode

/-! ## Canonical wires re-encode byte-identically -/

mutual

/-- A wire whose dictionaries already arrive in Comparator-sorted order with
pairwise distinct keys. -/
def canonW : W → Bool
  | .ws _ => true
  | .wi _ => true
  | .wl l => canonWL l
  | .wd d => sortedKeysB (wdPairs d) && canonWD d

def canonWL : WL → Bool
  | .nil => true
  | .cons hd tl => canonW hd && canonWL tl

def canonWD : WD → Bool
  | .nil => true
  | .cons k v tl => canonW k && (canonW v && canonWD tl)

end

mutual

theorem write_decW : ∀ t : W, canonW t = true → Item.write (decW t) = emit t
  | .ws s => fun _ => rfl
  | .wi n => fun _ => rfl
  | .wl l => by
    intro h
    rw [canonW] at h
    rw [decW, Item.write, emit, writeL_decWL l h]
  | .wd d => by
    intro h
    rw [canonW, Bool.and_eq_true] at h
    rw [decW, instWD_append d .nil (by rw [pAppend]; exact h.1), pAppend]
    rw [Item.write, emit, writeD_wdPairs d h.2]

theorem writeL_decWL : ∀ l : WL, canonWL l = true →
    writeL (decWL l) = emitL l
  | .nil => fun _ => rfl
  | .cons hd tl => by
    intro h
    rw [canonWL, Bool.and_eq_true] at h
    rw [decWL, writeL, emitL, write_decW hd h.1, writeL_decWL tl h.2]

theorem writeD_wdPairs : ∀ d : WD, canonWD d = true →
    writeD (wdPairs d) = emitD d
  | .nil => fun _ => rfl
  | .cons k v tl => by
    intro h
    rw [canonWD, Bool.and_eq_true, Bool.and_eq_true] at h
    rw [wdPairs, writeD, emitD, write_decW k h.1, write_decW v h.2.1,
      writeD_wdPairs tl h.2.2]

end

/-! ## Every decoded tree is well formed (its dictionaries sorted) -/

def wfItemM : MItem → Bool
  | .null => true
  | .item x => wfItem x

theorem dInv_instWD : ∀ (d : WD) (acc : MPairs), dInvB acc = true →
    dInvB (instWD acc d) = true
  | .nil => fun _ h => h
  | .cons k v tl => by
    intro acc h
    rw [instWD]
    exact dInv_instWD tl _ (dInv_assign _ _ _ h)

theorem wfItemD_insert (k : Item) (hk : wfItem k = true) :
    ∀ (ps : MPairs) (n : Nat), wfItemD ps = true →
      wfItemD (dInsertAt n (.item k) .null ps) = true
  | .nil, n => by
    intro _
    cases n <;> simp [dInsertAt, wfItemD, hk]
  | .cons ek ev tl, 0 => by
    intro h
    rw [dInsertAt, wfItemD, hk, h]
    rfl
  | .cons .null .null tl, m + 1 => by
    intro h
    rw [wfItemD] at h
    rw [dInsertAt, wfItemD, wfItemD_insert k hk tl m h]
  | .cons .null (.item v) tl, m + 1 => by
    intro h
    rw [wfItemD, Bool.and_eq_true] at h
    rw [dInsertAt, wfItemD, h.1, wfItemD_insert k hk tl m h.2]
    rfl
  | .cons (.item e) .null tl, m + 1 => by
    intro h
    rw [wfItemD, Bool.and_eq_true] at h
    rw [dInsertAt, wfItemD, h.1, wfItemD_insert k hk tl m h.2]
    rfl
  | .cons (.item e) (.item v) tl, m + 1 => by
    intro h
    rw [wfItemD, Bool.and_eq_true, Bool.and_eq_true] at h
    rw [dInsertAt, wfItemD, h.1, h.2.1, wfItemD_insert k hk tl m h.2.2]
    rfl

theorem wfItemD_setVal (v : MItem) (hv : wfItemM v = true) :
    ∀ (ps : MPairs) (n : Nat), wfItemD ps = true →
      wfItemD (dSetValAt n v ps) = true
  | .nil, n => by
    intro _
    cases n <;> rfl
  | .cons .null ev tl, 0 => by
    intro h
    have hh : wfItemD tl = true := by
      cases ev with
      | null => rw [wfItemD] at h; exact h
      | item _ => rw [wfItemD, Bool.and_eq_true] at h; exact h.2
    cases v with
    | null => rw [dSetValAt, wfItemD]; exact hh
    | item x =>
      rw [wfItemM] at hv
      rw [dSetValAt, wfItemD, hv, hh]
      rfl
  | .cons (.item e) ev tl, 0 => by
    intro h
    have hwe : wfItem e = true ∧ wfItemD tl = true := by
      cases ev with
      | null => rw [wfItemD, Bool.and_eq_true] at h; exact h
      | item _ =>
        rw [wfItemD, Bool.and_eq_true, Bool.and_eq_true] at h
        exact ⟨h.1, h.2.2⟩
    cases v with
    | null =>
      rw [dSetValAt, wfItemD, hwe.1, hwe.2]
      rfl
    | item x =>
      rw [wfItemM] at hv
      rw [dSetValAt, wfItemD, hwe.1, hv, hwe.2]
      rfl
  | .cons .null .null tl, m + 1 => by
    intro h
    rw [wfItemD] at h
    rw [dSetValAt, wfItemD, wfItemD_setVal v hv tl m h]
  | .cons .null (.item w) tl, m + 1 => by
    intro h
    rw [wfItemD, Bool.and_eq_true] at h
    rw [dSetValAt, wfItemD, h.1, wfItemD_setVal v hv tl m h.2]
    rfl
  | .cons (.item e) .null tl, m + 1 => by
    intro h
    rw [wfItemD, Bool.and_eq_true] at h
    rw [dSetValAt, wfItemD, h.1, wfItemD_setVal v hv tl m h.2]
    rfl
  | .cons (.item e) (.item w) tl, m + 1 => by
    intro h
    rw [wfItemD, Bool.and_eq_true, Bool.and_eq_true] at h
    rw [dSetValAt, wfItemD, h.1, h.2.1, wfItemD_setVal v hv tl m h.2.2]
    rfl

theorem wfItemD_assign (ps : MPairs) (k : Item) (v : MItem)
    (h : wfItemD ps = true) (hk : wfItem k = true) (hv : wfItemM v = true) :
    wfItemD (dAssign ps k v) = true := by
  rw [dAssign, dAccess]
  by_cases hf : dFoundAt k ps = true
  · rw [if_pos hf]
    exact wfItemD_setVal v hv ps _ h
  · rw [if_neg hf]
    simp only
    rw [clone_id]
    exact wfItemD_setVal v hv _ _ (wfItemD_insert k hk ps _ h)

theorem wfItemD_instWD : ∀ (d : WD) (acc : MPairs), wfItemD acc = true →
    wfItemD (wdPairs d) = true → wfItemD (instWD acc d) = true
  | .nil => fun _ h _ => h
  | .cons k v tl => by
    intro acc hacc hd
    rw [wdPairs, wfItemD, Bool.and_eq_true, Bool.and_eq_true] at hd
    rw [instWD]
    exact wfItemD_instWD tl _
      (wfItemD_assign acc (decW k) (.item (decW v)) hacc hd.1 hd.2.1) hd.2.2

mutual

/-- Every tree the parser builds is well formed: in particular all its
dictionaries are sorted with pairwise-distinct non-NULL keys. -/
theorem wfItem_decW : ∀ t : W, wfItem (decW t) = true
  | .ws _ => rfl
  | .wi _ => rfl
  | .wl l => by
    rw [decW, wfItem]
    exact wfItemL_decWL l
  | .wd d => by
    rw [decW, wfItem]
    have hinv := dInv_instWD d .nil rfl
    rw [dInvB, Bool.and_eq_true] at hinv
    rw [hinv.1, hinv.2, wfItemD_instWD d .nil rfl (wfPairs_decWD d)]
    rfl

theorem wfItemL_decWL : ∀ l : WL, wfItemL (decWL l) = true
  | .nil => rfl
  | .cons hd tl => by
    rw [decWL, wfItemL, wfItem_decW hd, wfItemL_decWL tl]
    rfl

theorem wfPairs_decWD : ∀ d : WD, wfItemD (wdPairs d) = true
  | .nil => rfl
  | .cons k v tl => by
    rw [wdPairs, wfItemD, wfItem_decW k, wfItem_decW v, wfPairs_decWD tl]
    rfl

end

end Bencode
namespace Bencode

/-! ## The specification's statement of the comparison algorithm (C4)

A second definition, following the specification's words rather than the
source: let `n = min(componentCount a, componentCount b)`; for `i` in `0..n`
byte-wise compare `component(a, i)` with `component(b, i)` (each fragment on
its own, no scratch-buffer threading) and return the first non-equal result;
on a tie the node with fewer components sorts first, equal counts mean
equal. -/

def specCompareLoop (a b : Item) : Nat → Nat → Ordering
  | 0, _ =>
      if componentCount a < componentCount b then .lt
      else if componentCount b < componentCount a then .gt
      else .eq
  | steps + 1, i =>
      match bytesCmp (component a i []) (component b i []) with
      | .eq => specCompareLoop a b steps (i + 1)
      | r => r

def specCompare (a b : Item) : Ordering :=
  specCompareLoop a b (min (componentCount a) (componentCount b)) 0

theorem specCompareLoop_eq_cmpList (a b : Item) :
    ∀ (k i : Nat), i + k = min (componentCount a) (componentCount b) →
      specCompareLoop a b k i =
        cmpList bytesCmp ((frags a).drop i) ((frags b).drop i) := by
  intro k
  induction k with
  | zero =>
    intro i hk
    simp only [Nat.add_zero] at hk
    subst hk
    simp only [specCompareLoop]
    rcases Nat.lt_trichotomy (componentCount a) (componentCount b) with h | h | h
    · rw [if_pos h]
      rw [Nat.min_eq_left (Nat.le_of_lt h)]
      rw [List.drop_of_length_le (by rw [frags_length])]
      have hb : 0 < ((frags b).drop (componentCount a)).length := by
        rw [List.length_drop, frags_length]
        omega
      cases hB : (frags b).drop (componentCount a) with
      | nil => rw [hB] at hb; simp at hb
      | cons z zs => simp [cmpList]
    · rw [if_neg (by omega), if_neg (by omega), h, Nat.min_self]
      rw [List.drop_of_length_le (by rw [frags_length, h]),
        List.drop_of_length_le (by rw [frags_length])]
      rfl
    · rw [if_neg (by omega), if_pos h]
      rw [Nat.min_eq_right (Nat.le_of_lt h)]
      rw [show (frags b).drop (componentCount b) = [] from
        List.drop_of_length_le (by rw [frags_length])]
      have ha : 0 < ((frags a).drop (componentCount b)).length := by
        rw [List.length_drop, frags_length]
        omega
      cases hA : (frags a).drop (componentCount b) with
      | nil => rw [hA] at ha; simp at ha
      | cons z zs => simp [cmpList]
  | succ k ih =>
    intro i hk
    have hia : i < componentCount a := by omega
    have hib : i < componentCount b := by omega
    simp only [specCompareLoop]
    rw [component_frags a i [] hia, component_frags b i [] hib]
    rw [drop_eq_getD_cons (frags a) [] i (by rw [frags_length]; exact hia),
      drop_eq_getD_cons (frags b) [] i (by rw [frags_length]; exact hib)]
    simp only [cmpList]
    cases hcm : bytesCmp ((frags a).getD i []) ((frags b).getD i [])
    · rfl
    · exact ih (i + 1) (by omega)
    · rfl

/-- `Item::compare` implements the specified algorithm: the scratch-buffer
threading of the source loop never influences a fragment at a valid index. -/
theorem compare_eq_specCompare (a b : Item) :
    Item.compare a b = specCompare a b := by
  rw [compare_eq_cmpList, specCompare,
    specCompareLoop_eq_cmpList a b _ 0 (by omega)]
  simp

end Bencode
namespace Bencode

/-! ## Remaining support lemmas for the claims -/

theorem lenP_insert (x y : MItem) : ∀ (ps : MPairs) (n : Nat),
    lenP (dInsertAt n x y ps) = lenP ps + 1
  | .nil, n => by cases n <;> rfl
  | .cons ek ev tl, 0 => rfl
  | .cons ek ev tl, m + 1 => by
    rw [dInsertAt, lenP, lenP, lenP_insert x y tl m]

theorem dFoundAt_insert_self (k : Item) : ∀ ps : MPairs,
    dFoundAt k ps = false →
    dFoundAt k (dInsertAt (dFindPos k ps) (.item (clone k)) .null ps) = true
  | .nil => by
    intro _
    simp [dFindPos, dInsertAt, dFoundAt, clone_id, compare_refl]
  | .cons .null ev tl => by
    intro _
    simp [dFindPos, dInsertAt, dFoundAt, clone_id, compare_refl]
  | .cons (.item e) ev tl => by
    intro hnf
    simp only [dFindPos, dFoundAt] at hnf ⊢
    by_cases hgt : Item.compare k e = .gt
    · rw [if_pos hgt] at hnf ⊢
      simp only [dInsertAt, dFoundAt, if_pos hgt,
        dFoundAt_insert_self k tl hnf]
    · rw [if_neg hgt] at hnf ⊢
      simp [dInsertAt, dFoundAt, clone_id, compare_refl]

theorem allLtB_pairAt (e : MItem) : ∀ (ps : MPairs) (m : Nat) (ek ev : MItem),
    allLtB e ps = true → pairAt m ps = some (ek, ev) → keyLtB e ek = true
  | .nil, m, ek, ev => by
    intro _ hp
    cases m <;> exact Option.noConfusion hp
  | .cons fk fv tl, 0, ek, ev => by
    intro hall hp
    rw [allLtB, Bool.and_eq_true] at hall
    rw [pairAt] at hp
    obtain ⟨h1, -⟩ := Prod.mk.injEq .. ▸ Option.some.injEq .. ▸ hp
    · rw [← h1]
      exact hall.1
  | .cons fk fv tl, m + 1, ek, ev => by
    intro hall hp
    rw [allLtB, Bool.and_eq_true] at hall
    rw [pairAt] at hp
    exact allLtB_pairAt e tl m ek ev hall.2 hp

theorem sorted_pairAt_lt : ∀ (ps : MPairs), sortedKeysB ps = true →
    ∀ (i j : Nat) (ki vi kj vj : MItem), i < j →
      pairAt i ps = some (ki, vi) → pairAt j ps = some (kj, vj) →
      keyLtB ki kj = true
  | .nil => by
    intro _ i j ki vi kj vj _ hp _
    cases i <;> exact Option.noConfusion hp
  | .cons ek ev tl => by
    intro hs i j ki vi kj vj hij hpi hpj
    rw [sortedKeysB, Bool.and_eq_true] at hs
    cases i with
    | zero =>
      rw [pairAt] at hpi
      obtain ⟨m, rfl⟩ : ∃ m, j = m + 1 := ⟨j - 1, by omega⟩
      rw [pairAt] at hpj
      have h1 : ek = ki := congrArg (fun p => (Option.getD p (ek, ev)).1) hpi
      rw [← h1]
      exact allLtB_pairAt ek tl m kj vj hs.1 hpj
    | succ n =>
      obtain ⟨m, rfl⟩ : ∃ m, j = m + 1 := ⟨j - 1, by omega⟩
      rw [pairAt] at hpi hpj
      exact sorted_pairAt_lt tl hs.2 n m ki vi kj vj (by omega) hpi hpj

theorem writeL_mlAppend : ∀ a b : MList,
    writeL (mlAppend a b) = writeL a ++ writeL b
  | .nil, b => rfl
  | .cons .null tl, b => by
    rw [mlAppend, writeL, writeL, writeL_mlAppend tl b]
    rfl
  | .cons (.item x) tl, b => by
    rw [mlAppend, writeL, writeL, writeL_mlAppend tl b, List.append_assoc]

theorem writeD_pAppend : ∀ a b : MPairs,
    writeD (pAppend a b) = writeD a ++ writeD b
  | .nil, b => by rw [pAppend, writeD, List.nil_append]
  | .cons k v tl, b => by
    rw [pAppend, writeD_cons, writeD_cons, writeD_pAppend tl b]
    simp only [List.append_assoc]

/-- The integer case of `_read` on a digit run followed by the terminator. -/
theorem readItem_int (ds : Bytes) (fuel : Nat) (h1 : 1 ≤ fuel)
    (hds : 101 ∉ ds) :
    readItem fuel (ds ++ [101]) 0 105 =
      .res (some (.int (strtoimax ds))) [] 1 := by
  obtain ⟨f, rfl⟩ : ∃ f, fuel = f + 1 := ⟨fuel - 1, by omega⟩
  rw [readItem_succ, if_pos rfl]
  rw [show ds ++ [101] = ds ++ 101 :: [] from rfl]
  simp only [intScan_spec ds [] [] hds, List.nil_append]

end Bencode
namespace Bencode

/-! ## The claims -/

/-- C1 counterexample: the claim includes trees with null slots, but a NULL
list slot serializes as `0:` and decodes back as an *empty String* node, so
`decode(encode(x))` is not structurally equal to `x` when `x` holds a null
slot: for `x = List[NULL]` the decode yields `List[String("")]`. -/
theorem c1_null_slot_not_roundtripped :
    Item.write (.list (.cons .null .nil)) = [108, 48, 58, 101] ∧
    decode [108, 48, 58, 101] =
      .res (some (.list (.cons (.item (.str [])) .nil))) [] 2 ∧
    Item.list (.cons (.item (.str [])) .nil) ≠
      Item.list (.cons .null .nil) := by
  refine ⟨rfl, rfl, ?_⟩
  intro h
  injection h with h1
  injection h1 with h2 h3
  exact MItem.noConfusion h2

/-- C1 (amended): for every validly constructed tree `x` with *no* null
slots — every Dictionary sorted with strictly-ascending non-NULL keys,
integers and string lengths within `intmax_t` — decoding the serialization of
`x` returns a node structurally equal to `x`: same variant shapes, same
string bytes and integer values, same Dictionary pair order. -/
theorem c1_roundtrip_of_valid :
    ∀ x : Item, validB x = true →
      ∃ lv, decode (Item.write x) = .res (some x) [] lv := by
  intro x h
  rw [write_toW x h]
  obtain ⟨lv, hd⟩ := decode_emit (toW x) (wfW_toW x h)
  rw [decW_toW x h] at hd
  exact ⟨lv, hd⟩

/-- C1 witness: a concrete valid tree (a sorted two-key dictionary holding a
string and a list with a negative integer) decodes from its own encoding. -/
theorem c1_roundtrip_witness :
    validB (.dict (.cons (.item (.str [99, 111, 119]))
      (.item (.str [109, 111, 111]))
      (.cons (.item (.str [115, 112, 97, 109]))
        (.item (.list (.cons (.item (.int (-3))) .nil))) .nil))) = true ∧
    ∃ lv, decode (Item.write (.dict (.cons (.item (.str [99, 111, 119]))
      (.item (.str [109, 111, 111]))
      (.cons (.item (.str [115, 112, 97, 109]))
        (.item (.list (.cons (.item (.int (-3))) .nil))) .nil)))) =
      .res (some (.dict (.cons (.item (.str [99, 111, 119]))
        (.item (.str [109, 111, 111]))
        (.cons (.item (.str [115, 112, 97, 109]))
          (.item (.list (.cons (.item (.int (-3))) .nil))) .nil)))) [] lv :=
  ⟨by decide, c1_roundtrip_of_valid _ (by decide)⟩

/-- C2 counterexample: `"i03e"` is a well-formed wire under the grammar
(`i`, digits, `e`) and contains no dictionary, yet it re-encodes as `"i3e"`,
so re-encoding is not byte-identical and the deviation is not the documented
dictionary-sorting exception. -/
theorem c2_leading_zero_not_reproduced :
    decode [105, 48, 51, 101] = .res (some (.int 3)) [] 1 ∧
    Item.write (.int 3) = [105, 51, 101] ∧
    [105, 51, 101] ≠ [105, 48, 51, 101] :=
  ⟨rfl, rfl, by decide⟩

/-- C2 (amended): for every well-formed wire with canonical integer and
length texts, decoding succeeds and produces a tree whose dictionaries are
all Comparator-sorted; when every dictionary's pairs already arrive on the
wire in sorted order with pairwise-distinct keys, re-encoding reproduces the
wire byte-for-byte; and the claim's concrete instance holds: decoding
`"d4:eggs4:spam3:cow3:mooe"` re-encodes as `"d3:cow3:moo4:eggs4:spame"`. -/
theorem c2_canonical_reencode :
    (∀ t : W, wfW t = true →
      ∃ lv, decode (emit t) = .res (some (decW t)) [] lv ∧
        wfItem (decW t) = true) ∧
    (∀ t : W, canonW t = true → Item.write (decW t) = emit t) ∧
    (decode [100, 52, 58, 101, 103, 103, 115, 52, 58, 115, 112, 97, 109,
        51, 58, 99, 111, 119, 51, 58, 109, 111, 111, 101] =
      .res (some (.dict (.cons (.item (.str [99, 111, 119]))
        (.item (.str [109, 111, 111]))
        (.cons (.item (.str [101, 103, 103, 115]))
          (.item (.str [115, 112, 97, 109])) .nil)))) [] 7 ∧
      Item.write (.dict (.cons (.item (.str [99, 111, 119]))
        (.item (.str [109, 111, 111]))
        (.cons (.item (.str [101, 103, 103, 115]))
          (.item (.str [115, 112, 97, 109])) .nil))) =
      [100, 51, 58, 99, 111, 119, 51, 58, 109, 111, 111, 52, 58, 101, 103,
        103, 115, 52, 58, 115, 112, 97, 109, 101]) := by
  refine ⟨?_, write_decW, rfl, rfl⟩
  intro t hwf
  obtain ⟨lv, hd⟩ := decode_emit t hwf
  exact ⟨lv, hd, wfItem_decW t⟩

/-- C2 witness: a concrete non-sorted two-pair wire dictionary decodes, and a
concrete canonical list wire re-encodes identically. -/
theorem c2_canonical_reencode_witness :
    (∃ lv, decode (emit (.wd (.cons (.ws [98]) (.ws [49])
        (.cons (.ws [97]) (.ws [50]) .nil)))) =
      .res (some (decW (.wd (.cons (.ws [98]) (.ws [49])
        (.cons (.ws [97]) (.ws [50]) .nil))))) [] lv ∧
      wfItem (decW (.wd (.cons (.ws [98]) (.ws [49])
        (.cons (.ws [97]) (.ws [50]) .nil)))) = true) ∧
    Item.write (decW (.wl (.cons (.wi 5) .nil))) =
      emit (.wl (.cons (.wi 5) .nil)) :=
  ⟨c2_canonical_reencode.1 _ (by decide),
   c2_canonical_reencode.2.1 _ (by decide)⟩

/-- C3: the Comparator is reflexive-equal; `compare(a,b)` is less exactly
when `compare(b,a)` is greater; and non-greater results compose
transitively — a total preorder over all constructible nodes, mixed variants
included. -/
theorem c3_comparator_total_order :
    (∀ a : Item, Item.compare a a = .eq) ∧
    (∀ a b : Item, Item.compare a b = .lt ↔ Item.compare b a = .gt) ∧
    (∀ a b c : Item, Item.compare a b ≠ .gt → Item.compare b c ≠ .gt →
      Item.compare a c ≠ .gt) := by
  refine ⟨compare_refl, compare_lt_iff_swap_gt, ?_⟩
  intro a b c h1 h2
  rcases hab : Item.compare a b with _ | _ | _
  · rcases hbc : Item.compare b c with _ | _ | _
    · rw [compare_trans.lt_lt hab hbc]
      simp
    · rw [compare_trans.lt_eq hab hbc]
      simp
    · exact absurd hbc h2
  · rcases hbc : Item.compare b c with _ | _ | _
    · rw [compare_trans.eq_lt hab hbc]
      simp
    · rw [compare_trans.eq_eq hab hbc]
      simp
    · exact absurd hbc h2
  · exact absurd hab h1

/-- C3 witness: transitivity applied at three concrete mixed-variant nodes
(`String "5"`, `Integer 7`, `String "9"`). -/
theorem c3_comparator_witness :
    Item.compare (.str [53]) (.int 7) ≠ .gt ∧
    Item.compare (.int 7) (.str [57]) ≠ .gt ∧
    Item.compare (.str [53]) (.str [57]) ≠ .gt :=
  ⟨by decide, by decide,
   c3_comparator_total_order.2.2 (.str [53]) (.int 7) (.str [57])
     (by decide) (by decide)⟩

/-- C4: `Item::compare` implements exactly the specified algorithm — compare
`component(a,i)` with `component(b,i)` byte-wise for
`i < min(componentCount a, componentCount b)`, first difference wins,
otherwise the prefix/count rule — and consequently `Integer 5` and the
one-byte `String "5"`, whose canonical texts coincide, compare equal despite
being different variants. -/
theorem c4_compare_flattened_text :
    (∀ a b : Item, Item.compare a b = specCompare a b) ∧
    Item.compare (.int 5) (.str [53]) = .eq ∧
    Item.int 5 ≠ Item.str [53] :=
  ⟨compare_eq_specCompare, by decide, fun h => Item.noConfusion h⟩

/-- C5: after any finite sequence of key-indexed operations (assignment,
access, removal) starting from the empty Dictionary, every key is a non-NULL
node, the pair sequence is strictly ascending under the Comparator, and any
two distinct entries' keys compare strictly — never equal (an existing key
reuses its slot). -/
theorem c5_dictionary_sorted_invariant :
    ∀ ops : List DOp, opsWfB ops = true →
      keysItemB (runOps ops) = true ∧ sortedKeysB (runOps ops) = true ∧
      (∀ (i j : Nat) (ki kj : Item) (vi vj : MItem), i < j →
        pairAt i (runOps ops) = some (.item ki, vi) →
        pairAt j (runOps ops) = some (.item kj, vj) →
        Item.compare ki kj = .lt ∧ Item.compare ki kj ≠ .eq ∧
          Item.compare kj ki ≠ .eq) := by
  intro ops _
  have hinv := dInv_runOps ops
  rw [dInvB, Bool.and_eq_true] at hinv
  refine ⟨hinv.1, hinv.2, ?_⟩
  intro i j ki kj vi vj hij hpi hpj
  have hlt := sorted_pairAt_lt (runOps ops) hinv.2 i j _ _ _ _ hij hpi hpj
  rw [keyLtB, decide_eq_true_eq] at hlt
  refine ⟨hlt, by rw [hlt]; simp, ?_⟩
  have hsw := compare_swap kj ki
  rw [hlt] at hsw
  cases hkk : Item.compare kj ki <;> rw [hkk] at hsw <;>
    simp [Ordering.swap] at hsw ⊢

/-- C5 witness: a concrete operation sequence — assign under key `"b"`,
access (and so insert) key `"a"`, remove `"b"`, assign `"c"` — keeps the pair
sequence sorted and duplicate-free. -/
theorem c5_dictionary_invariant_witness :
    opsWfB [.assign (.str [98]) (.item (.int 1)), .access (.str [97]),
      .remove (.str [98]), .assign (.str [99]) .null] = true ∧
    keysItemB (runOps [.assign (.str [98]) (.item (.int 1)),
      .access (.str [97]), .remove (.str [98]),
      .assign (.str [99]) .null]) = true ∧
    sortedKeysB (runOps [.assign (.str [98]) (.item (.int 1)),
      .access (.str [97]), .remove (.str [98]),
      .assign (.str [99]) .null]) = true :=
  ⟨by decide,
   (c5_dictionary_sorted_invariant _ (by decide)).1,
   (c5_dictionary_sorted_invariant _ (by decide)).2.1⟩

/-- C6: indexing a sorted Dictionary by an absent key inserts the pair
`(clone(key), NULL)` at the Comparator-sorted scan position and hands back
the index of exactly that pair — so a read mutates the Dictionary (its
length grows) — while `has_key` is a bare `_find` scan, embedded here as a
pure function precisely because the source performs no insertion in it. -/
theorem c6_absent_access_inserts :
    ∀ (ps : MPairs) (k : Item), dInvB ps = true → has_key ps k = false →
      (dAccess ps k).2 = dFindPos k ps ∧
      (dAccess ps k).1 =
        dInsertAt (dFindPos k ps) (.item (clone k)) .null ps ∧
      pairAt (dAccess ps k).2 (dAccess ps k).1 =
        some (.item (clone k), .null) ∧
      lenP (dAccess ps k).1 = lenP ps + 1 ∧
      dInvB (dAccess ps k).1 = true ∧
      has_key (dAccess ps k).1 k = true := by
  intro ps k hinv hnk
  rw [has_key] at hnk
  have h1 : (dAccess ps k).1 =
      dInsertAt (dFindPos k ps) (.item (clone k)) .null ps := by
    rw [dAccess, if_neg (by rw [hnk]; simp)]
  have h2 : (dAccess ps k).2 = dFindPos k ps := by
    rw [dAccess, if_neg (by rw [hnk]; simp)]
    exact dFindPos_insert_self k ps hnk
  refine ⟨h2, h1, ?_, ?_, dInv_access ps k hinv, ?_⟩
  · rw [h1, h2]
    exact pairAt_insert _ _ ps _ (dFindPos_le k ps)
  · rw [h1, lenP_insert]
  · rw [has_key, h1]
    exact dFoundAt_insert_self k ps hnk

/-- C6 witness: accessing the absent key `"a"` in the singleton Dictionary
`{"b": 1}` inserts `(clone "a", NULL)` at position 0 and returns index 0. -/
theorem c6_absent_access_witness :
    dInvB (.cons (.item (.str [98])) (.item (.int 1)) .nil) = true ∧
    has_key (.cons (.item (.str [98])) (.item (.int 1)) .nil)
      (.str [97]) = false ∧
    (dAccess (.cons (.item (.str [98])) (.item (.int 1)) .nil)
      (.str [97])).2 = dFindPos (.str [97])
        (.cons (.item (.str [98])) (.item (.int 1)) .nil) ∧
    pairAt (dAccess (.cons (.item (.str [98])) (.item (.int 1)) .nil)
        (.str [97])).2
      (dAccess (.cons (.item (.str [98])) (.item (.int 1)) .nil)
        (.str [97])).1 =
      some (.item (clone (.str [97])), .null) :=
  ⟨by decide, by decide,
   (c6_absent_access_inserts _ _ (by decide) (by decide)).1,
   (c6_absent_access_inserts _ _ (by decide) (by decide)).2.2.1⟩

end Bencode
namespace Bencode

/-- C7: on the failure inputs the decoder does return no node — a bad leading
byte (`"X"`) and a non-digit inside a string length (`"4a:x"`) both yield
NULL with nothing left allocated — but the claim's release guarantee fails on
the dictionary path: decoding `"d1:a1:bX"` installs the pair `("a","b")`
(cloning the key) and then fails on `X`; the cleanup deletes the dictionary,
but the *original* key node `String("a")` allocated during this failed
attempt is never freed, so one allocation stays live. -/
theorem c7_failure_paths_leak :
    decode [88] = .res none [] 0 ∧
    decode [52, 97, 58, 120] = .res none [58, 120] 0 ∧
    decode [100, 49, 58, 97, 49, 58, 98, 88] = .res none [] 1 :=
  ⟨rfl, rfl, rfl⟩

/-- C8: decoding the two-byte input `"i3"` never returns at all: the source
is exhausted before the terminator, `read()` yields `'\0'` forever and the
integer loop `while ('e' != (byte = in.read()))` never exits — modelled as
`hang` for every amount of fuel — whereas the claim (and the spec) say the
decode entry point returns with no node. -/
theorem c8_missing_terminator_never_returns :
    ∀ fuel : Nat, itemRead fuel [105, 51] = .hang := by
  intro fuel
  cases fuel with
  | zero => rfl
  | succ f => rfl

/-- C9 counterexample: decoding the two-byte sequence `0:` as a composite's
element produces an *empty String* node, not an absent/null slot — the slot
of `decode "l0:e"` holds `String("")`, which is a different variant from the
null sentinel. -/
theorem c9_null_entry_decodes_as_empty_string :
    decode [108, 48, 58, 101] =
      .res (some (.list (.cons (.item (.str [])) .nil))) [] 2 ∧
    MItem.item (.str []) ≠ MItem.null :=
  ⟨rfl, fun h => MItem.noConfusion h⟩

/-- C9 (amended): inside a List or Dictionary a null slot serializes as
exactly the two bytes `0:` in its position — at every element position of a
List, and at every pair position of a Dictionary for a null key as well as a
null value, with the slots before and after emitted unchanged around it (so
wire positions are preserved, nothing is omitted); but decoding `0:` as an
element — both composite loops read each element through `readItem` with the
tag byte taken off the stream, so the element read for `0:` is
`readItem fuel rest live 48` with `rest` starting at the `:` — produces an
empty String node consuming exactly those two bytes, never a null slot;
concretely `l0:e` decodes to a List holding `String("")`. -/
theorem c9_null_slot_serialization :
    (∀ l1 l2 : MList, Item.write (.list (mlAppend l1 (.cons .null l2))) =
      108 :: ((writeL l1 ++ (48 :: 58 :: writeL l2)) ++ [101])) ∧
    (∀ (p1 : MPairs) (v : MItem) (p2 : MPairs),
      Item.write (.dict (pAppend p1 (.cons .null v p2))) =
        100 :: ((writeD p1 ++ (48 :: 58 :: (writeM v ++ writeD p2))) ++ [101])) ∧
    (∀ (p1 : MPairs) (k : MItem) (p2 : MPairs),
      Item.write (.dict (pAppend p1 (.cons k .null p2))) =
        100 :: ((writeD p1 ++ (writeM k ++ (48 :: 58 :: writeD p2))) ++ [101])) ∧
    (∀ (fuel live : Nat) (rest : Bytes),
      readItem (fuel + 1) (58 :: rest) live 48 =
        .res (some (.str [])) rest (live + 1)) ∧
    decode [108, 48, 58, 101] =
      .res (some (.list (.cons (.item (.str [])) .nil))) [] 2 := by
  refine ⟨?_, ?_, ?_, ?_, rfl⟩
  · intro l1 l2
    rw [Item.write, writeL_mlAppend, writeL]
  · intro p1 v p2
    rw [Item.write, writeD_pAppend, writeD_cons]
    rfl
  · intro p1 k p2
    rw [Item.write, writeD_pAppend, writeD_cons]
    rfl
  · intro fuel live rest
    rfl

/-- C10: decoding `i<digits>e` whose decimal value exceeds `INTMAX_MAX`
deterministically yields `Integer(INTMAX_MAX)`, and `i-<digits>e` whose value
falls below `INTMAX_MIN` yields `Integer(INTMAX_MIN)` — the saturation of
`strtoimax` on out-of-range text (the decoder is a function, so equal inputs
always produce equal nodes). -/
theorem c10_integer_saturation :
    ∀ ds : Bytes, ds ≠ [] → (∀ b ∈ ds, 48 ≤ b ∧ b ≤ 57) →
      (intmaxMax < (digitsVal ds : Int) →
        decode (105 :: (ds ++ [101])) =
          .res (some (.int intmaxMax)) [] 1) ∧
      ((2 ^ 63 : Int) < (digitsVal ds : Int) →
        decode (105 :: (45 :: (ds ++ [101]))) =
          .res (some (.int intmaxMin)) [] 1) := by
  intro ds hne hdig
  have h101 : (101 : Nat) ∉ ds := fun hmem => by
    have := hdig 101 hmem
    omega
  constructor
  · intro hbig
    rw [decode, itemRead]
    simp only [read1]
    rw [readItem_int ds _ (by omega) h101]
    rw [strtoimax_digits ds hne hdig, if_pos hbig]
  · intro hbig
    rw [decode, itemRead]
    simp only [read1]
    have h101' : (101 : Nat) ∉ (45 :: ds) := by
      intro hmem
      rcases List.mem_cons.1 hmem with h | h
      · omega
      · exact h101 h
    rw [show (45 :: (ds ++ [101])) = (45 :: ds) ++ [101] from rfl]
    rw [readItem_int (45 :: ds) _ (by omega) h101']
    rw [strtoimax_neg_digits ds hdig,
      if_pos (by rw [intmaxMin]; omega)]

/-- C10 witness: the 19-digit text of `2^63 + 1` saturates upward to
`INTMAX_MAX` and, with a minus sign, downward to `INTMAX_MIN`. -/
theorem c10_integer_saturation_witness :
    decode (105 :: ([57, 50, 50, 51, 51, 55, 50, 48, 51, 54, 56, 53, 52,
        55, 55, 53, 56, 48, 57] ++ [101])) =
      .res (some (.int intmaxMax)) [] 1 ∧
    decode (105 :: (45 :: ([57, 50, 50, 51, 51, 55, 50, 48, 51, 54, 56, 53,
        52, 55, 55, 53, 56, 48, 57] ++ [101]))) =
      .res (some (.int intmaxMin)) [] 1 :=
  ⟨(c10_integer_saturation _ (by decide) (by decide)).1 (by decide),
   (c10_integer_saturation _ (by decide) (by decide)).2 (by decide)⟩

end Bencode
